import Mathlib

/-!
# Verification of the image-sieve photo-organization core

Shallow embedding in Lean 4 of the algorithmic core of the `image-sieve`
repository, and proofs of the specification claims about it:

* `LruMap` — the generic least-recently-used map of `src/misc/lru_map.rs`;
* `FileItem`, `find_similar`, `find_similar_hashes`, `clean_similars` —
  the similarity clustering of `src/item_sort_list/item_list.rs` and
  `src/item_sort_list/file_item.rs`;
* `get_sub_path`, `timestamp_to_string`, `Event` — the destination
  computation of `src/item_sort_list/sieve.rs`, `timestamp.rs`, `event.rs`;
* `check_target`, `different`, `sieveMsgs` — collision handling and the
  progress stream of `src/item_sort_list/sieve.rs`;
* `ImageCacheState.load` / `.purge` — the queue manipulation of
  `src/misc/image_cache.rs`.

Rust `u32`/`usize` counters and indices are modelled as `Nat`; `i64`
timestamps as `Int`.  `u32::MAX` appears explicitly as `U32MAX` where the
source code uses it as a sentinel.
-/

/-- `u32::MAX`, used by `LruMap::get_lru_key` as the initial sentinel and by
`FileItem::get_hash_distance` as the "no hash" distance. -/
def U32MAX : Nat := 4294967295

set_option linter.unusedSectionVars false

namespace LruSpec

/-- Model of `LruMap<T, K, S>` (src/misc/lru_map.rs).  The inner
`HashMap<K, (T, u32)>` is modelled as an association list from keys to
(value, counter) pairs; the recency counter is a `Nat` (the `u32` overflow
wrap is not modelled — all claims concern runs far below `u32::MAX`
operations, and where the `u32::MAX` sentinel matters it is explicit). -/
structure LruMap (T K : Type) (S : Nat) where
  map : List (K × T × Nat)
  counter : Nat
deriving DecidableEq, Repr

variable {T K : Type} [DecidableEq T] [DecidableEq K] {S : Nat}

/-- Association-list lookup, modelling `HashMap::get`. -/
def lookupAL (l : List (K × T × Nat)) (k : K) : Option (T × Nat) :=
  match l with
  | [] => none
  | e :: rest => if e.1 = k then some e.2 else lookupAL rest k

/-- Modelling `HashMap::insert`: replace the entry of an existing key in
place, otherwise add a new entry. -/
def insertAL (l : List (K × T × Nat)) (k : K) (v : T × Nat) :
    List (K × T × Nat) :=
  if (lookupAL l k).isSome then
    l.map (fun e => if e.1 = k then (k, v) else e)
  else
    l ++ [(k, v)]

/-- Modelling `HashMap::remove`: remove the entry with the given key. -/
def removeAL (l : List (K × T × Nat)) (k : K) : List (K × T × Nat) :=
  match l with
  | [] => []
  | e :: rest => if e.1 = k then rest else e :: removeAL rest k

/-- `LruMap::new`. -/
def LruMap.new : LruMap T K S := ⟨[], 0⟩

/-- `LruMap::get`: on a hit, bump the global counter and stamp the entry
with it.  Returns the looked-up value together with the updated map. -/
def LruMap.get (m : LruMap T K S) (k : K) : Option T × LruMap T K S :=
  match lookupAL m.map k with
  | some (t, _) =>
      (some t,
       ⟨m.map.map (fun e => if e.1 = k then (e.1, e.2.1, m.counter + 1) else e),
        m.counter + 1⟩)
  | none => (none, m)

/-- `LruMap::contains`. -/
def LruMap.contains (m : LruMap T K S) (k : K) : Bool :=
  (lookupAL m.map k).isSome

/-- The fold inside `LruMap::get_lru_key`: scan the entries keeping the
first strict minimum of the counters, starting from `lru_counter = u32::MAX`
and `lru_key = None`. -/
def lruFold (l : List (K × T × Nat)) (acc : Option K × Nat) : Option K × Nat :=
  match l with
  | [] => acc
  | e :: rest =>
      if e.2.2 < acc.2 then lruFold rest (some e.1, e.2.2)
      else lruFold rest acc

/-- `LruMap::get_lru_key`. -/
def LruMap.get_lru_key (m : LruMap T K S) : Option K :=
  (lruFold m.map (none, U32MAX)).1

/-- `LruMap::put`: if the map holds exactly `S` entries, first remove the
entry returned by `get_lru_key` (if any), then insert with a fresh counter. -/
def LruMap.put (m : LruMap T K S) (k : K) (t : T) : LruMap T K S :=
  let afterEvict : List (K × T × Nat) :=
    if m.map.length = S then
      match m.get_lru_key with
      | some lru_key => removeAL m.map lru_key
      | none => m.map
    else m.map
  ⟨insertAL afterEvict k (t, m.counter + 1), m.counter + 1⟩

/-- `LruMap::clear`. -/
def LruMap.clear (_m : LruMap T K S) : LruMap T K S := ⟨[], 0⟩

/-- One operation of the `LruMap` public interface. -/
inductive LruOp (T K : Type) where
  | get (k : K)
  | contains (k : K)
  | put (k : K) (t : T)
  | clear
deriving DecidableEq, Repr

/-- Apply one interface operation to the map state (the value returned by
`get`/`contains` is irrelevant to the size invariant). -/
def applyOp (m : LruMap T K S) : LruOp T K → LruMap T K S
  | .get k => (m.get k).2
  | .contains _ => m
  | .put k t => m.put k t
  | .clear => m.clear

/-- Apply a sequence of interface operations starting from a given state. -/
def applyOps (m : LruMap T K S) (ops : List (LruOp T K)) : LruMap T K S :=
  ops.foldl applyOp m

end LruSpec

namespace LruSpec

variable {T K : Type} [DecidableEq T] [DecidableEq K] {S : Nat}

/-- A key produced by the `get_lru_key` fold is a key of a scanned entry,
unless it was already the accumulator. -/
theorem lruFold_mem (l : List (K × T × Nat)) (acc : Option K × Nat) (k : K)
    (h : (lruFold l acc).1 = some k) :
    (∃ e ∈ l, e.1 = k) ∨ acc.1 = some k := by
  induction l generalizing acc with
  | nil => exact Or.inr h
  | cons e rest ih =>
      simp only [lruFold] at h
      by_cases hc : e.2.2 < acc.2
      · simp only [if_pos hc] at h
        rcases ih _ h with h' | h'
        · rcases h' with ⟨e', he', hk⟩
          exact Or.inl ⟨e', List.mem_cons_of_mem _ he', hk⟩
        · exact Or.inl ⟨e, List.mem_cons_self _ _, by simpa using h'⟩
      · simp only [if_neg hc] at h
        rcases ih _ h with h' | h'
        · rcases h' with ⟨e', he', hk⟩
          exact Or.inl ⟨e', List.mem_cons_of_mem _ he', hk⟩
        · exact Or.inr h'

/-- Once the `get_lru_key` fold holds a candidate, it keeps holding one. -/
theorem lruFold_isSome_of_acc (l : List (K × T × Nat)) (acc : Option K × Nat)
    (h : acc.1.isSome) : (lruFold l acc).1.isSome := by
  induction l generalizing acc with
  | nil => exact h
  | cons e rest ih =>
      simp only [lruFold]
      by_cases hc : e.2.2 < acc.2
      · simp only [if_pos hc]; exact ih _ (by simp)
      · simp only [if_neg hc]; exact ih _ h

/-- If some scanned entry has a counter below the running minimum, the
fold ends with a candidate. -/
theorem lruFold_isSome (l : List (K × T × Nat)) (acc : Option K × Nat)
    (h : ∃ e ∈ l, e.2.2 < acc.2) : (lruFold l acc).1.isSome := by
  induction l generalizing acc with
  | nil => simp at h
  | cons e rest ih =>
      simp only [lruFold]
      by_cases hc : e.2.2 < acc.2
      · simp only [if_pos hc]
        exact lruFold_isSome_of_acc _ _ (by simp)
      · simp only [if_neg hc]
        rcases h with ⟨e', he', hlt⟩
        rcases List.mem_cons.mp he' with rfl | he'
        · exact absurd hlt hc
        · exact ih _ ⟨e', he', hlt⟩

/-- `lookupAL` succeeds exactly on keys of the list. -/
theorem lookupAL_isSome_iff (l : List (K × T × Nat)) (k : K) :
    (lookupAL l k).isSome = true ↔ ∃ e ∈ l, e.1 = k := by
  induction l with
  | nil => simp [lookupAL]
  | cons e rest ih =>
      simp only [lookupAL]
      by_cases hc : e.1 = k
      · simp [hc]
      · simp only [if_neg hc, ih, List.mem_cons]
        constructor
        · rintro ⟨e', he', hk⟩; exact ⟨e', Or.inr he', hk⟩
        · rintro ⟨e', he' | he', hk⟩
          · exact absurd (he' ▸ hk) hc
          · exact ⟨e', he', hk⟩

/-- Removing a present key shrinks the list by exactly one entry. -/
theorem removeAL_length (l : List (K × T × Nat)) (k : K)
    (h : ∃ e ∈ l, e.1 = k) : (removeAL l k).length + 1 = l.length := by
  induction l with
  | nil => simp at h
  | cons e rest ih =>
      simp only [removeAL]
      by_cases hc : e.1 = k
      · simp [hc]
      · rcases h with ⟨e', he', hk⟩
        rcases List.mem_cons.mp he' with rfl | he'
        · exact absurd hk hc
        · simp only [if_neg hc, List.length_cons]
          rw [← ih ⟨e', he', hk⟩]

/-- Removing never adds entries. -/
theorem removeAL_length_le (l : List (K × T × Nat)) (k : K) :
    (removeAL l k).length ≤ l.length := by
  induction l with
  | nil => simp [removeAL]
  | cons e rest ih =>
      simp only [removeAL]
      by_cases hc : e.1 = k
      · simp [hc]
      · simp only [if_neg hc, List.length_cons]
        omega

/-- Entries surviving a removal were entries before. -/
theorem removeAL_subset (l : List (K × T × Nat)) (k : K) :
    ∀ e ∈ removeAL l k, e ∈ l := by
  induction l with
  | nil => simp [removeAL]
  | cons e rest ih =>
      simp only [removeAL]
      by_cases hc : e.1 = k
      · simp only [if_pos hc]
        intro e' he'; exact List.mem_cons_of_mem _ he'
      · simp only [if_neg hc]
        intro e' he'
        rcases List.mem_cons.mp he' with rfl | he'
        · exact List.mem_cons_self _ _
        · exact List.mem_cons_of_mem _ (ih _ he')

/-- Length of `insertAL`: unchanged on a present key, one more otherwise. -/
theorem insertAL_length (l : List (K × T × Nat)) (k : K) (v : T × Nat) :
    (insertAL l k v).length ≤ l.length + 1 := by
  unfold insertAL
  by_cases hc : (lookupAL l k).isSome
  · simp [hc]
  · simp [hc]

/-- Entries of `insertAL` are old entries or the new one. -/
theorem insertAL_mem (l : List (K × T × Nat)) (k : K) (v : T × Nat) :
    ∀ e ∈ insertAL l k v, e ∈ l ∨ e = (k, v) := by
  unfold insertAL
  by_cases hc : (lookupAL l k).isSome
  · simp only [hc, if_true]
    intro e he
    rcases List.mem_map.mp he with ⟨e', he', hmap⟩
    by_cases hk : e'.1 = k
    · simp only [if_pos hk] at hmap; exact Or.inr hmap.symm
    · simp only [if_neg hk] at hmap; exact Or.inl (hmap ▸ he')
  · simp only [hc, if_false]
    intro e he
    rcases List.mem_append.mp he with he | he
    · exact Or.inl he
    · exact Or.inr (by simpa using he)

end LruSpec

namespace LruSpec

variable {T K : Type} [DecidableEq T] [DecidableEq K] {S : Nat}

/-- The running minimum of the `get_lru_key` fold never increases. -/
theorem lruFold_snd_le (l : List (K × T × Nat)) (acc : Option K × Nat) :
    (lruFold l acc).2 ≤ acc.2 := by
  induction l generalizing acc with
  | nil => simp [lruFold]
  | cons e rest ih =>
      simp only [lruFold]
      by_cases hc : e.2.2 < acc.2
      · simp only [if_pos hc]
        exact le_trans (ih _) (le_of_lt hc)
      · simp only [if_neg hc]
        exact ih _

/-- The final running minimum is below every scanned counter. -/
theorem lruFold_snd_le_mem (l : List (K × T × Nat)) (acc : Option K × Nat) :
    ∀ e ∈ l, (lruFold l acc).2 ≤ e.2.2 := by
  induction l generalizing acc with
  | nil => simp
  | cons e rest ih =>
      intro e' he'
      simp only [lruFold]
      rcases List.mem_cons.mp he' with rfl | he'
      · by_cases hc : e'.2.2 < acc.2
        · simp only [if_pos hc]
          exact lruFold_snd_le _ _
        · simp only [if_neg hc]
          exact le_trans (lruFold_snd_le _ _) (le_of_not_lt hc)
      · by_cases hc : e.2.2 < acc.2
        · simp only [if_pos hc]; exact ih _ _ he'
        · simp only [if_neg hc]; exact ih _ _ he'

/-- The key returned by the fold belongs to an entry whose counter is the
final running minimum (or it was the initial accumulator). -/
theorem lruFold_key_counter (l : List (K × T × Nat)) (acc : Option K × Nat)
    (k : K) (h : (lruFold l acc).1 = some k) :
    (∃ e ∈ l, e.1 = k ∧ e.2.2 = (lruFold l acc).2) ∨
      (acc.1 = some k ∧ (lruFold l acc).2 = acc.2) := by
  induction l generalizing acc with
  | nil => exact Or.inr ⟨h, rfl⟩
  | cons e rest ih =>
      simp only [lruFold] at h ⊢
      by_cases hc : e.2.2 < acc.2
      · simp only [if_pos hc] at h ⊢
        rcases ih _ h with ⟨e', he', hk, hcnt⟩ | ⟨hacc, hcnt⟩
        · exact Or.inl ⟨e', List.mem_cons_of_mem _ he', hk, hcnt⟩
        · refine Or.inl ⟨e, List.mem_cons_self _ _, by simpa using hacc, ?_⟩
          simpa using hcnt.symm
      · simp only [if_neg hc] at h ⊢
        rcases ih _ h with ⟨e', he', hk, hcnt⟩ | ⟨hacc, hcnt⟩
        · exact Or.inl ⟨e', List.mem_cons_of_mem _ he', hk, hcnt⟩
        · exact Or.inr ⟨hacc, hcnt⟩

/-- `get_lru_key` returns a key whose entry has the globally lowest
counter among the map's entries. -/
theorem get_lru_key_min (m : LruMap T K S) (lru : K)
    (h : m.get_lru_key = some lru) :
    ∃ e ∈ m.map, e.1 = lru ∧ ∀ e' ∈ m.map, e.2.2 ≤ e'.2.2 := by
  rcases lruFold_key_counter m.map (none, U32MAX) lru h with
    ⟨e, he, hk, hcnt⟩ | ⟨hacc, _⟩
  · exact ⟨e, he, hk, fun e' he' => hcnt ▸ lruFold_snd_le_mem _ _ e' he'⟩
  · simp at hacc

/-- On a full map whose counters are all below `u32::MAX`, `get_lru_key`
finds a victim. -/
theorem get_lru_key_isSome (m : LruMap T K S)
    (hne : m.map ≠ []) (hbelow : ∃ e ∈ m.map, e.2.2 < U32MAX) :
    ∃ lru, m.get_lru_key = some lru := by
  have := lruFold_isSome (T := T) (K := K) m.map (none, U32MAX) hbelow
  rcases h : (lruFold m.map ((none : Option K), U32MAX)).1 with _ | k
  · rw [h] at this; simp at this
  · exact ⟨k, h⟩

/-- Single-step preservation of the size and counter invariants of
`LruMap`, for reachable states whose global counter is still below
`u32::MAX`. -/
theorem applyOp_inv (m : LruMap T K S) (op : LruOp T K) (hS : 1 ≤ S)
    (hcnt : ∀ e ∈ m.map, e.2.2 ≤ m.counter) (hlen : m.map.length ≤ S)
    (hc : m.counter < U32MAX) :
    (applyOp m op).map.length ≤ S ∧
      (∀ e ∈ (applyOp m op).map, e.2.2 ≤ (applyOp m op).counter) ∧
      (applyOp m op).counter ≤ m.counter + 1 := by
  cases op with
  | contains k => exact ⟨hlen, hcnt, Nat.le_succ _⟩
  | clear => exact ⟨by simp [applyOp, LruMap.clear], by simp [applyOp, LruMap.clear], by simp [applyOp, LruMap.clear]⟩
  | get k =>
      simp only [applyOp, LruMap.get]
      rcases hl : lookupAL m.map k with _ | ⟨t, c⟩
      · exact ⟨hlen, hcnt, Nat.le_succ _⟩
      · refine ⟨by simpa using hlen, ?_, le_refl _⟩
        intro e he
        rcases List.mem_map.mp he with ⟨e', he', hmap⟩
        by_cases hk : e'.1 = k
        · simp only [if_pos hk] at hmap
          simp [← hmap]
        · simp only [if_neg hk] at hmap
          rw [← hmap]
          exact le_trans (hcnt e' he') (Nat.le_succ _)
  | put k t =>
      simp only [applyOp, LruMap.put]
      by_cases hfull : m.map.length = S
      · have hne : m.map ≠ [] := by
          intro h; rw [h] at hfull; simp at hfull; omega
        have hbelow : ∃ e ∈ m.map, e.2.2 < U32MAX := by
          rcases List.exists_mem_of_ne_nil m.map hne with ⟨e, he⟩
          exact ⟨e, he, lt_of_le_of_lt (hcnt e he) hc⟩
        rcases get_lru_key_isSome m hne hbelow with ⟨lru, hlru⟩
        rcases get_lru_key_min m lru hlru with ⟨e, he, hk, _⟩
        simp only [if_pos hfull, hlru]
        refine ⟨?_, ?_, le_refl _⟩
        · have h1 : (removeAL m.map lru).length + 1 = m.map.length :=
            removeAL_length m.map lru ⟨e, he, hk⟩
          have h2 := insertAL_length (removeAL m.map lru) k (t, m.counter + 1)
          omega
        · intro e' he'
          rcases insertAL_mem _ _ _ e' he' with h' | h'
          · exact le_trans (hcnt e' (removeAL_subset _ _ _ h')) (Nat.le_succ _)
          · simp [h']
      · simp only [if_neg hfull]
        refine ⟨?_, ?_, le_refl _⟩
        · have h2 := insertAL_length m.map k (t, m.counter + 1)
          omega
        · intro e' he'
          rcases insertAL_mem _ _ _ e' he' with h' | h'
          · exact le_trans (hcnt e' h') (Nat.le_succ _)
          · simp [h']

/-- Invariant preservation over an operation sequence. -/
theorem applyOps_inv (ops : List (LruOp T K)) (m : LruMap T K S) (hS : 1 ≤ S)
    (hcnt : ∀ e ∈ m.map, e.2.2 ≤ m.counter) (hlen : m.map.length ≤ S)
    (hc : m.counter + ops.length ≤ U32MAX) :
    (applyOps m ops).map.length ≤ S := by
  induction ops generalizing m with
  | nil => exact hlen
  | cons op rest ih =>
      simp only [applyOps, List.foldl_cons] at *
      have hc1 : m.counter < U32MAX := by
        simp only [List.length_cons] at hc; omega
      obtain ⟨h1, h2, h3⟩ := applyOp_inv m op hS hcnt hlen hc1
      exact ih (applyOp m op) h2 h1 (by simp only [List.length_cons] at hc; omega)

end LruSpec

namespace LruSpec

variable {T K : Type} [DecidableEq T] [DecidableEq K] {S : Nat}

/-- Looking up the key just inserted yields the inserted value. -/
theorem lookupAL_insertAL (l : List (K × T × Nat)) (k : K) (v : T × Nat) :
    lookupAL (insertAL l k v) k = some v := by
  induction l with
  | nil => simp [insertAL, lookupAL]
  | cons e rest ih =>
      by_cases hk : e.1 = k
      · simp [insertAL, lookupAL, hk]
      · simp only [insertAL, lookupAL, if_neg hk] at ih ⊢
        by_cases hs : (lookupAL rest k).isSome
        · simp only [hs, if_true] at ih ⊢
          simpa [lookupAL, hk] using ih
        · simp only [hs, if_false] at ih ⊢
          simpa [lookupAL, hk] using ih

/-- The state of a capacity-2 `LruMap` after `put 1 10; put 2 20; get 1`:
both keys present, key 2 least recently used. -/
def c2pre : LruMap Nat Nat 2 :=
  ((((LruMap.new).put 1 10).put 2 20).get 1).2

/-- C2, counterexample: re-putting key 1, which is already present in a
full capacity-2 map, evicts the other key 2 — refuting "re-putting a key
that is already present never causes another entry to be evicted". -/
theorem lru_reput_evicts_other_key :
    c2pre.contains 1 = true ∧ c2pre.contains 2 = true ∧
      c2pre.map.length = 2 ∧ (c2pre.put 1 30).contains 2 = false := by
  decide

/-- C2 (amended): `put(key, value)` removes the entry with the globally
lowest recency counter if and only if the map already holds `Capacity`
entries — whether or not `key` is one of them (so re-putting a present key
on a full map does evict the least-recently-used entry, possibly a
different key); the new entry is always inserted with a counter greater
than every counter previously in the map.  Stated for states whose
counters are consistent and below `u32::MAX`. -/
theorem lru_put_amended (m : LruMap T K S) (k : K) (t : T)
    (hS : 1 ≤ S) (hcnt : ∀ e ∈ m.map, e.2.2 ≤ m.counter)
    (hc : m.counter < U32MAX) :
    (m.map.length ≠ S → (m.put k t).map = insertAL m.map k (t, m.counter + 1)) ∧
    (m.map.length = S → ∃ lru, m.get_lru_key = some lru ∧
        (∃ e ∈ m.map, e.1 = lru ∧ ∀ e' ∈ m.map, e.2.2 ≤ e'.2.2) ∧
        (m.put k t).map = insertAL (removeAL m.map lru) k (t, m.counter + 1)) ∧
    lookupAL (m.put k t).map k = some (t, m.counter + 1) ∧
    (∀ e ∈ m.map, e.2.2 < m.counter + 1) := by
  refine ⟨?_, ?_, ?_, ?_⟩
  · intro hne
    simp [LruMap.put, if_neg hne]
  · intro hfull
    have hnil : m.map ≠ [] := by
      intro h; rw [h] at hfull; simp at hfull; omega
    have hbelow : ∃ e ∈ m.map, e.2.2 < U32MAX := by
      rcases List.exists_mem_of_ne_nil m.map hnil with ⟨e, he⟩
      exact ⟨e, he, lt_of_le_of_lt (hcnt e he) hc⟩
    rcases get_lru_key_isSome m hnil hbelow with ⟨lru, hlru⟩
    refine ⟨lru, hlru, get_lru_key_min m lru hlru, ?_⟩
    simp [LruMap.put, if_pos hfull, hlru]
  · by_cases hfull : m.map.length = S
    · rcases hlru : m.get_lru_key with _ | lru
      · simp [LruMap.put, if_pos hfull, hlru, lookupAL_insertAL]
      · simp [LruMap.put, if_pos hfull, hlru, lookupAL_insertAL]
    · simp [LruMap.put, if_neg hfull, lookupAL_insertAL]
  · intro e he
    exact Nat.lt_succ_of_le (hcnt e he)

/-- C2, witness: the amended eviction/insertion behaviour evaluated on a
concrete full capacity-2 map. -/
theorem lru_put_amended_witness :
    lookupAL (c2pre.put 1 30).map 1 = some (30, 4) :=
  (lru_put_amended c2pre 1 30 (by decide) (by decide) (by decide)).2.2.1

/-- C3, counterexample: with capacity `S = 0`, a single `put` leaves the
map holding one entry — more than `S` — because `get_lru_key` on the empty
map returns no victim and the insertion happens regardless, refuting "for
every capacity S (including S = 0 ...) the map never holds more than S
entries". -/
theorem lru_zero_capacity_exceeded :
    0 < (applyOps (LruMap.new : LruMap Nat Nat 0) [LruOp.put 1 10]).map.length := by
  decide

/-- C3 (amended): an `LruMap` of capacity `S ≥ 1` never holds more than
`S` entries, for every sequence of `get`/`contains`/`put`/`clear`
operations from the empty map of length below `u32::MAX` (so that the
recency counters stay below the `u32::MAX` sentinel used by
`get_lru_key`).  For `S = 0` the bound fails after a single `put`. -/
theorem lru_capacity_bound (T K : Type) [DecidableEq T] [DecidableEq K]
    (S : Nat) (hS : 1 ≤ S) (ops : List (LruOp T K))
    (hops : ops.length < U32MAX) :
    (applyOps (LruMap.new : LruMap T K S) ops).map.length ≤ S := by
  refine applyOps_inv ops LruMap.new hS ?_ ?_ ?_
  · intro e he; simp [LruMap.new] at he
  · simp [LruMap.new]
  · simp only [LruMap.new]
    omega

/-- C3, witness: capacity 1 with three puts and a get stays at one entry. -/
theorem lru_capacity_bound_witness :
    (applyOps (LruMap.new : LruMap Nat Nat 1)
        [LruOp.put 1 10, LruOp.put 2 20, LruOp.get 2, LruOp.put 3 30]).map.length ≤ 1 :=
  lru_capacity_bound Nat Nat 1 (by decide) _ (by decide)

end LruSpec

set_option linter.unusedVariables false

namespace ItemSort

/-- Model of `FileItem` (src/item_sort_list/file_item.rs), restricted to
the fields the verified operations read or write: the file path (a plain
string), the timestamp (`i64`), the `take_over` flag, the list of similar
indices, and the optional perceptual hash (modelled as its sequence of
bits). The `orientation` and `item_type` fields play no role in the
verified claims. -/
structure FileItem where
  path : String
  timestamp : Int
  take_over : Bool
  similar : List Nat
  hash : Option (List Bool)
deriving DecidableEq, Repr

instance : Inhabited FileItem := ⟨⟨"", 0, true, [], none⟩⟩

/-- `FileItem::add_similar_range`: extend `similar` with `lo..hi`. -/
def FileItem.add_similar_range (it : FileItem) (lo hi : Nat) : FileItem :=
  { it with similar := it.similar ++ List.range' lo (hi - lo) }

/-- `FileItem::add_similar_vec`: extend `similar` with a list. -/
def FileItem.add_similar_vec (it : FileItem) (l : List Nat) : FileItem :=
  { it with similar := it.similar ++ l }

/-- Insertion into a `(· ≤ ·)`-sorted list; `sortNat` below models
`Vec::sort_unstable` (any comparison sort produces the same list). -/
def insertSorted (a : Nat) : List Nat → List Nat
  | [] => [a]
  | b :: l => if a ≤ b then a :: b :: l else b :: insertSorted a l

/-- Sorting of the `similar` vector (`Vec::sort_unstable`). -/
def sortNat (l : List Nat) : List Nat := l.foldr insertSorted []

/-- `Vec::dedup`: removal of consecutive duplicates. -/
def dedupAdj : List Nat → List Nat
  | [] => []
  | [a] => [a]
  | a :: b :: l => if a = b then dedupAdj (b :: l) else a :: dedupAdj (b :: l)

/-- `FileItem::clean_similars`: sort, remove consecutive duplicates, and
remove the item's own index (located by `binary_search` in the source; on
the sorted deduplicated list this removes the single occurrence, modelled
by `List.erase`). -/
def FileItem.clean_similars (it : FileItem) (item_index : Nat) : FileItem :=
  { it with similar := (dedupAdj (sortNat it.similar)).erase item_index }

/-- Timestamp of the item at an index (reads out of range yield the
default item; `find_similar` only indexes in bounds). -/
def tsAt (items : List FileItem) (i : Nat) : Int :=
  (items.getD i default).timestamp

/-- `similar` list of the item at an index. -/
def simAt (items : List FileItem) (i : Nat) : List Nat :=
  (items.getD i default).similar

/-- `ItemList::set_similar_range`: every item with index in `[lo, hi)` has
the whole range `lo..hi` appended to its `similar` list. -/
def set_similar_range (items : List FileItem) (lo hi : Nat) : List FileItem :=
  items.mapIdx fun i it =>
    if lo ≤ i ∧ i < hi then it.add_similar_range lo hi else it

/-- The state of `ItemList::find_similar`'s scan after processing indices
`0..k`: the current run-start index and the partially updated items.
Step `k` compares the previous item's timestamp (+`max_diff_seconds`)
against item `k`'s timestamp and, on a gap, flushes the completed run
`[start, k)` via `set_similar_range`. -/
def fsScan (d : Int) (items : List FileItem) : Nat → Nat × List FileItem
  | 0 => (0, items)
  | k + 1 =>
      let p := fsScan d items k
      if tsAt p.2 (k - 1) + d < tsAt p.2 k then (k, set_similar_range p.2 p.1 k)
      else p

/-- `ItemList::find_similar` (src/item_sort_list/item_list.rs, lines
117-139): scan all items flushing timestamp runs, flush the final run,
then `clean_similars` every item with its own index. -/
def find_similar (items : List FileItem) (d : Int) : List FileItem :=
  if items.isEmpty then items
  else
    let n := items.length
    let p := fsScan d items n
    let its2 := set_similar_range p.2 p.1 n
    its2.mapIdx fun i it => it.clean_similars i

end ItemSort

namespace ItemSort

/-- Hamming distance of two bit sequences (`img_hash`'s `ImageHash::dist`:
popcount of the xor of the hash bytes; positions beyond the shorter hash
are ignored, hashes compared in the program always have equal length). -/
def hashDist (h1 h2 : List Bool) : Nat :=
  (h1.zip h2).countP fun p => p.1 != p.2

/-- `FileItem::get_hash_distance`
(src/item_sort_list/file_item.rs, lines 266-275): the hash distance when
both items have a hash, `u32::MAX` otherwise. -/
def FileItem.get_hash_distance (a b : FileItem) : Nat :=
  match a.hash, b.hash with
  | some h1, some h2 => hashDist h1 h2
  | _, _ => U32MAX

/-- The ordered index pairs `(index, other_index)` visited by the nested
loops of `ItemList::find_similar_hashes`. -/
def pairList (n : Nat) : List (Nat × Nat) :=
  (List.range n).flatMap fun i =>
    (List.range' (i + 1) (n - (i + 1))).map fun j => (i, j)

/-- Push an index onto one of the per-item similarity lists. -/
def pushSim (sl : List (List Nat)) (i j : Nat) : List (List Nat) :=
  sl.set i (sl.getD i [] ++ [j])

/-- The per-item similarity lists accumulated by the pair loop of
`find_similar_hashes`: for every visited pair with distance below the
threshold, each index is pushed onto the other's list. -/
def hashLoop (items : List FileItem) (maxd : Nat) : List (List Nat) :=
  (pairList items.length).foldl
    (fun sl p =>
      if p.2 ≠ p.1 then
        if (items.getD p.1 default).get_hash_distance (items.getD p.2 default) < maxd then
          pushSim (pushSim sl p.1 p.2) p.2 p.1
        else sl
      else sl)
    (List.replicate items.length [])

/-- `ItemList::find_similar_hashes` (src/item_sort_list/item_list.rs,
lines 149-170): accumulate the below-threshold pairs, then append each
item's accumulated list to its `similar` vector and clean it. -/
def find_similar_hashes (items : List FileItem) (maxd : Nat) : List FileItem :=
  let sl := hashLoop items maxd
  items.mapIdx fun i it => (it.add_similar_vec (sl.getD i [])).clean_similars i

end ItemSort

namespace ItemSort

/-- Membership in `insertSorted`. -/
theorem mem_insertSorted (a b : Nat) (l : List Nat) :
    a ∈ insertSorted b l ↔ a = b ∨ a ∈ l := by
  induction l with
  | nil => simp [insertSorted]
  | cons c l ih =>
      simp only [insertSorted]
      by_cases hc : b ≤ c
      · simp [if_pos hc]
      · simp only [if_neg hc, List.mem_cons, ih]
        tauto

/-- `insertSorted` preserves sortedness. -/
theorem sorted_insertSorted (b : Nat) (l : List Nat)
    (h : l.Sorted (· ≤ ·)) : (insertSorted b l).Sorted (· ≤ ·) := by
  induction l with
  | nil => simp [insertSorted]
  | cons c l ih =>
      simp only [insertSorted]
      by_cases hc : b ≤ c
      · simp only [if_pos hc]
        refine List.sorted_cons.mpr ⟨?_, h⟩
        intro x hx
        rcases List.mem_cons.mp hx with rfl | hx
        · exact hc
        · exact le_trans hc ((List.sorted_cons.mp h).1 x hx)
      · simp only [if_neg hc]
        rcases List.sorted_cons.mp h with ⟨hall, hl⟩
        refine List.sorted_cons.mpr ⟨?_, ih hl⟩
        intro x hx
        rcases (mem_insertSorted x b l).mp hx with rfl | hx
        · exact le_of_not_le hc
        · exact hall x hx

/-- `sortNat` is sorted. -/
theorem sorted_sortNat (l : List Nat) : (sortNat l).Sorted (· ≤ ·) := by
  induction l with
  | nil => simp [sortNat]
  | cons a l ih => exact sorted_insertSorted a _ ih

/-- `sortNat` preserves membership. -/
theorem mem_sortNat (a : Nat) (l : List Nat) : a ∈ sortNat l ↔ a ∈ l := by
  induction l with
  | nil => simp [sortNat]
  | cons b l ih =>
      simp only [sortNat, List.foldr_cons] at ih ⊢
      rw [mem_insertSorted, ih, List.mem_cons]

/-- `dedupAdj` preserves membership. -/
theorem mem_dedupAdj (a : Nat) : ∀ l : List Nat, a ∈ dedupAdj l ↔ a ∈ l
  | [] => by simp [dedupAdj]
  | [b] => by simp [dedupAdj]
  | b :: c :: l => by
      simp only [dedupAdj]
      by_cases hbc : b = c
      · simp only [if_pos hbc, mem_dedupAdj a (c :: l), List.mem_cons]
        subst hbc
        tauto
      · simp only [if_neg hbc, List.mem_cons, mem_dedupAdj a (c :: l)]

/-- On a sorted list, `dedupAdj` yields a strictly sorted list. -/
theorem sortedLt_dedupAdj : ∀ l : List Nat, l.Sorted (· ≤ ·) →
    (dedupAdj l).Sorted (· < ·)
  | [] => by simp [dedupAdj]
  | [b] => by simp [dedupAdj]
  | b :: c :: l => by
      intro h
      rcases List.sorted_cons.mp h with ⟨hall, htail⟩
      simp only [dedupAdj]
      by_cases hbc : b = c
      · simp only [if_pos hbc]
        exact sortedLt_dedupAdj (c :: l) htail
      · simp only [if_neg hbc]
        refine List.sorted_cons.mpr ⟨?_, sortedLt_dedupAdj (c :: l) htail⟩
        intro x hx
        have hx' : x ∈ c :: l := (mem_dedupAdj x (c :: l)).mp hx
        have hbx : b ≤ x := hall x hx'
        have hbc' : b ≤ c := hall c (List.mem_cons_self _ _)
        rcases List.mem_cons.mp hx' with rfl | hx'
        · exact lt_of_le_of_ne hbc' hbc
        · rcases List.sorted_cons.mp htail with ⟨hall', _⟩
          have := hall' x hx'
          omega

/-- The `similar` list produced by `clean_similars` is strictly sorted. -/
theorem clean_sortedLt (it : FileItem) (i : Nat) :
    (it.clean_similars i).similar.Sorted (· < ·) := by
  simp only [FileItem.clean_similars]
  exact List.Pairwise.sublist (List.erase_sublist _ _)
    (sortedLt_dedupAdj _ (sorted_sortNat _))

/-- Membership in the cleaned `similar` list: everything originally
present except the item's own index. -/
theorem clean_mem (it : FileItem) (i j : Nat) :
    j ∈ (it.clean_similars i).similar ↔ j ≠ i ∧ j ∈ it.similar := by
  simp only [FileItem.clean_similars]
  have hnodup : (dedupAdj (sortNat it.similar)).Nodup :=
    (sortedLt_dedupAdj _ (sorted_sortNat _)).nodup
  rw [hnodup.mem_erase_iff, mem_dedupAdj, mem_sortNat]

end ItemSort

namespace ItemSort

/-- `getD` through `mapIdx`, in range. -/
theorem getD_mapIdx (l : List FileItem) (f : Nat → FileItem → FileItem)
    (i : Nat) (h : i < l.length) :
    (l.mapIdx f).getD i default = f i (l.getD i default) := by
  have h' : i < (l.mapIdx f).length := by
    simpa [List.length_mapIdx] using h
  rw [List.getD_eq_getElem?_getD, List.getElem?_eq_getElem h',
    List.getD_eq_getElem?_getD, List.getElem?_eq_getElem h]
  simpa using List.get_mapIdx l f i h

/-- `getD` through `mapIdx`, out of range. -/
theorem getD_mapIdx_ge (l : List FileItem) (f : Nat → FileItem → FileItem)
    (i : Nat) (h : l.length ≤ i) :
    (l.mapIdx f).getD i default = default := by
  have h' : (l.mapIdx f).length ≤ i := by
    simpa [List.length_mapIdx] using h
  rw [List.getD_eq_getElem?_getD, List.getElem?_eq_none h']
  rfl

/-- `set_similar_range` preserves the number of items. -/
theorem length_set_similar_range (its : List FileItem) (lo hi : Nat) :
    (set_similar_range its lo hi).length = its.length := by
  simp [set_similar_range, List.length_mapIdx]

/-- `set_similar_range` preserves every timestamp. -/
theorem tsAt_set_similar_range (its : List FileItem) (lo hi i : Nat) :
    tsAt (set_similar_range its lo hi) i = tsAt its i := by
  unfold tsAt set_similar_range
  by_cases h : i < its.length
  · rw [getD_mapIdx _ _ _ h]
    by_cases hc : lo ≤ i ∧ i < hi
    · simp [if_pos hc, FileItem.add_similar_range]
    · simp [if_neg hc]
  · rw [getD_mapIdx_ge _ _ _ (le_of_not_lt h),
      List.getD_eq_getElem?_getD its, List.getElem?_eq_none (le_of_not_lt h)]
    rfl

/-- Membership in a `similar` set after `set_similar_range`: either it was
there before, or the item index lies in `[lo, hi)` (and in range) and the
new member also lies in `[lo, hi)`. -/
theorem mem_simAt_set_similar_range (its : List FileItem) (lo hi i j : Nat) :
    j ∈ simAt (set_similar_range its lo hi) i ↔
      j ∈ simAt its i ∨
        (i < its.length ∧ lo ≤ i ∧ i < hi ∧ lo ≤ j ∧ j < hi) := by
  by_cases h : i < its.length
  · unfold simAt set_similar_range
    rw [getD_mapIdx _ _ _ h]
    by_cases hc : lo ≤ i ∧ i < hi
    · simp only [if_pos hc, FileItem.add_similar_range, List.mem_append,
        List.mem_range'_1]
      constructor
      · rintro (hj | ⟨hj1, hj2⟩)
        · exact Or.inl hj
        · exact Or.inr ⟨h, hc.1, hc.2, by omega, by omega⟩
      · rintro (hj | ⟨_, _, _, hj1, hj2⟩)
        · exact Or.inl hj
        · exact Or.inr ⟨hj1, by omega⟩
    · simp only [if_neg hc]
      constructor
      · exact fun hj => Or.inl hj
      · rintro (hj | ⟨_, hc1, hc2, _, _⟩)
        · exact hj
        · exact absurd ⟨hc1, hc2⟩ hc
  · unfold simAt set_similar_range
    rw [getD_mapIdx_ge _ _ _ (le_of_not_lt h),
      List.getD_eq_getElem?_getD its, List.getElem?_eq_none (le_of_not_lt h)]
    constructor
    · intro hj; exact Or.inl hj
    · rintro (hj | ⟨hi', _⟩)
      · exact hj
      · exact absurd hi' h

/-- Boundary predicate of the time scan: a gap larger than
`max_diff_seconds` between items `k-1` and `k`. -/
def bdry (d : Int) (items : List FileItem) (k : Nat) : Prop :=
  tsAt items (k - 1) + d < tsAt items k

instance (d : Int) (items : List FileItem) (k : Nat) :
    Decidable (bdry d items k) := by
  unfold bdry; infer_instance

/-- No boundary strictly between two indices (equivalently: every
consecutive timestamp gap on the way from one to the other is at most
`max_diff_seconds`). -/
def noGap (d : Int) (items : List FileItem) (i j : Nat) : Prop :=
  ∀ m, min i j < m → m ≤ max i j → ¬ bdry d items m

/-- The scan preserves the number of items. -/
theorem fsScan_length (d : Int) (items : List FileItem) (k : Nat) :
    (fsScan d items k).2.length = items.length := by
  induction k with
  | zero => rfl
  | succ k ih =>
      simp only [fsScan]
      split
      · simpa [length_set_similar_range] using ih
      · exact ih

/-- The scan preserves every timestamp. -/
theorem fsScan_ts (d : Int) (items : List FileItem) (k i : Nat) :
    tsAt (fsScan d items k).2 i = tsAt items i := by
  induction k generalizing i with
  | zero => rfl
  | succ k ih =>
      simp only [fsScan]
      split
      · rw [tsAt_set_similar_range]; exact ih i
      · exact ih i

end ItemSort

namespace ItemSort

/-- Flushing the run `[start, k)` via `set_similar_range` turns the
"completed up to `start`" membership characterization into the
"completed up to `k`" one, given that no boundary lies strictly between
`start` and `k` and that `start` is `0` or itself a boundary. -/
theorem flush_mem (d : Int) (items its : List FileItem) (start k : Nat)
    (hk : k ≤ items.length)
    (hlen : its.length = items.length)
    (hstart : start ≤ k)
    (hF2 : ∀ m, start < m → m < k → ¬ bdry d items m)
    (hF2' : start = 0 ∨ bdry d items start)
    (hF3 : ∀ i j, j ∈ simAt its i ↔
        j ∈ simAt items i ∨ (max i j < start ∧ noGap d items i j))
    (i j : Nat) :
    j ∈ simAt (set_similar_range its start k) i ↔
      j ∈ simAt items i ∨ (max i j < k ∧ noGap d items i j) := by
  rw [mem_simAt_set_similar_range, hF3]
  constructor
  · rintro ((hold | ⟨hmax, hng⟩) | ⟨hi, hlo_i, hik, hlo_j, hjk⟩)
    · exact Or.inl hold
    · exact Or.inr ⟨lt_of_lt_of_le hmax hstart, hng⟩
    · refine Or.inr ⟨by omega, ?_⟩
      intro m hm1 hm2
      exact hF2 m (by omega) (by omega)
  · rintro (hold | ⟨hmax, hng⟩)
    · exact Or.inl (Or.inl hold)
    · by_cases hcase : max i j < start
      · exact Or.inl (Or.inr ⟨hcase, hng⟩)
      · have hminge : start ≤ min i j := by
          by_contra hmin
          push_neg at hmin
          rcases hF2' with hz | hb
          · omega
          · exact hng start (by omega) (by omega) hb
        exact Or.inr ⟨by omega, by omega, by omega, by omega, by omega⟩

/-- Invariants of the `find_similar` scan after processing the first `k`
items: the run-start is at most `k` and is `0` or a boundary, no boundary
lies strictly between the run-start and `k`, and an index `j` is in item
`i`'s (not yet cleaned) similar set exactly if it was initially, or `i`
and `j` lie in a common completed run. -/
theorem fsScan_spec (d : Int) (items : List FileItem) (k : Nat)
    (hk : k ≤ items.length) :
    (fsScan d items k).1 ≤ k ∧
    ((fsScan d items k).1 = 0 ∨ bdry d items (fsScan d items k).1) ∧
    (∀ m, (fsScan d items k).1 < m → m < k → ¬ bdry d items m) ∧
    (∀ i j, j ∈ simAt (fsScan d items k).2 i ↔
        j ∈ simAt items i ∨
          (max i j < (fsScan d items k).1 ∧ noGap d items i j)) := by
  induction k with
  | zero =>
      refine ⟨le_refl _, Or.inl rfl, by omega, fun i j => ?_⟩
      simp only [fsScan]
      constructor
      · exact fun h => Or.inl h
      · rintro (h | ⟨hmax, hng⟩)
        · exact h
        · exact absurd hmax (by omega)
  | succ k ih =>
      have hk' : k ≤ items.length := Nat.le_of_succ_le hk
      obtain ⟨h1, h2, h3, h4⟩ := ih hk'
      have hcond : (tsAt (fsScan d items k).2 (k - 1) + d <
          tsAt (fsScan d items k).2 k) ↔ bdry d items k := by
        rw [fsScan_ts, fsScan_ts]; rfl
      simp only [fsScan]
      by_cases hb : bdry d items k
      · rw [if_pos (hcond.mpr hb)]
        refine ⟨Nat.le_succ _, Or.inr hb, by omega, ?_⟩
        intro i j
        exact flush_mem d items (fsScan d items k).2 (fsScan d items k).1 k
          hk' (fsScan_length d items k) h1 h3 h2 h4 i j
      · rw [if_neg (fun hc => hb (hcond.mp hc))]
        refine ⟨le_trans h1 (Nat.le_succ _), h2, ?_, h4⟩
        intro m hm1 hm2
        by_cases hmk : m = k
        · exact hmk ▸ hb
        · exact h3 m hm1 (by omega)

/-- Membership characterization of `find_similar`: after the scan, `j` is
in item `i`'s similar set exactly if `j ≠ i` and either `j` was there
initially or `i` and `j` lie in a common timestamp run. -/
theorem find_similar_mem (items : List FileItem) (d : Int) (i j : Nat)
    (hi : i < items.length) :
    j ∈ simAt (find_similar items d) i ↔
      j ≠ i ∧ (j ∈ simAt items i ∨
        (max i j < items.length ∧ noGap d items i j)) := by
  have hne : ¬ items.isEmpty := by
    cases items with
    | nil => simp at hi
    | cons a l => simp
  unfold find_similar
  rw [if_neg hne]
  obtain ⟨h1, h2, h3, h4⟩ := fsScan_spec d items items.length (le_refl _)
  have hflush := flush_mem d items (fsScan d items items.length).2
    (fsScan d items items.length).1 items.length (le_refl _)
    (fsScan_length d items items.length) h1 h3 h2 h4
  have hi' : i < (set_similar_range (fsScan d items items.length).2
      (fsScan d items items.length).1 items.length).length := by
    rw [length_set_similar_range, fsScan_length]
    exact hi
  have : simAt ((set_similar_range (fsScan d items items.length).2
        (fsScan d items items.length).1 items.length).mapIdx
        fun i it => it.clean_similars i) i =
      (((set_similar_range (fsScan d items items.length).2
        (fsScan d items items.length).1 items.length).getD i
          default).clean_similars i).similar := by
    unfold simAt
    rw [getD_mapIdx _ _ _ hi']
  rw [this, clean_mem]
  constructor
  · rintro ⟨hne', hmem⟩
    exact ⟨hne', (hflush i j).mp hmem⟩
  · rintro ⟨hne', hmem⟩
    exact ⟨hne', (hflush i j).mpr hmem⟩

end ItemSort

namespace ItemSort

/-- The six-item list of the repository's `find_similar` unit test:
timestamps `[0, 4, 8, 14, 64, 65]`, empty similar sets, no hashes. -/
def testItems : List FileItem :=
  [0, 4, 8, 14, 64, 65].map fun t => ⟨"test.jpg", t, true, [], none⟩

/-- **C1**: on the test list with `max_diff_seconds = 5`, items 0, 1 and 2
each end with exactly 2 similar indices, item 3 with 0, and items 4 and 5
with 1 each; and in general, on a timestamp-sorted list with empty
similar sets, `j` lands in item `i`'s similar set exactly when `i ≠ j`
and every consecutive timestamp gap between them is at most
`max_diff_seconds` (items of a common run are marked mutually similar,
runs break exactly at larger gaps). -/
theorem find_similar_c1 :
    ((find_similar testItems 5).map fun it => it.similar.length) =
        [2, 2, 2, 0, 1, 1] ∧
      ∀ (items : List FileItem) (d : Int),
        (∀ it ∈ items, it.similar = []) →
        (∀ b, b < items.length → ∀ a, a ≤ b → tsAt items a ≤ tsAt items b) →
        ∀ i j, i < items.length → j < items.length →
          (j ∈ simAt (find_similar items d) i ↔
            i ≠ j ∧ ∀ m, m ≤ max i j → min i j < m →
              tsAt items m - tsAt items (m - 1) ≤ d) := by
  constructor
  · decide
  · intro items d hempty hsort i j hi hj
    rw [find_similar_mem items d i j hi]
    have hmem : j ∉ simAt items i := by
      intro hmemj
      have hin : items.getD i default ∈ items := by
        rw [List.getD_eq_getElem?_getD, List.getElem?_eq_getElem hi]
        simpa using List.getElem_mem hi
      have : simAt items i = [] := hempty _ hin
      rw [this] at hmemj
      simp at hmemj
    constructor
    · rintro ⟨hne, hj' | ⟨hmax, hng⟩⟩
      · exact absurd hj' hmem
      · refine ⟨fun h => hne h.symm, ?_⟩
        intro m hm1 hm2
        have hb := hng m (by omega) (by omega)
        unfold bdry at hb
        omega
    · rintro ⟨hne, hgap⟩
      refine ⟨fun h => hne h.symm, Or.inr ⟨by omega, ?_⟩⟩
      intro m hm1 hm2
      unfold bdry
      have := hgap m hm2 hm1
      omega

/-- C1, witness: on the test list, item 1 is recorded as similar to
item 0 (timestamps 0 and 4, gap 4 ≤ 5). -/
theorem find_similar_c1_witness :
    1 ∈ simAt (find_similar testItems 5) 0 :=
  (find_similar_c1.2 testItems 5 (by decide) (by decide) 0 1 (by decide)
    (by decide)).mpr (by decide)

end ItemSort

namespace ItemSort

/-- Membership in the visited pair list: exactly the ordered pairs below
the item count. -/
theorem mem_pairList (n : Nat) (p : Nat × Nat) :
    p ∈ pairList n ↔ p.1 < p.2 ∧ p.2 < n := by
  simp only [pairList, List.mem_flatMap, List.mem_range, List.mem_map,
    List.mem_range'_1]
  constructor
  · rintro ⟨i, hi, j, ⟨hj1, hj2⟩, rfl⟩
    constructor <;> omega
  · rintro ⟨h1, h2⟩
    exact ⟨p.1, by omega, p.2, ⟨by omega, by omega⟩, rfl⟩

/-- `getD` of `set` at the written (in-range) index. -/
theorem getD_set_self (l : List (List Nat)) (a : Nat) (x : List Nat)
    (h : a < l.length) : (l.set a x).getD a [] = x := by
  induction l generalizing a with
  | nil => simp at h
  | cons b rest ih =>
      cases a with
      | zero => rfl
      | succ a => exact ih a (by simpa using h)

/-- `getD` of `set` at another index. -/
theorem getD_set_ne (l : List (List Nat)) (a i : Nat) (x : List Nat)
    (h : i ≠ a) : (l.set a x).getD i [] = l.getD i [] := by
  induction l generalizing a i with
  | nil => simp
  | cons b rest ih =>
      cases a with
      | zero =>
          cases i with
          | zero => exact absurd rfl h
          | succ i => rfl
      | succ a =>
          cases i with
          | zero => rfl
          | succ i => exact ih a i (by omega)

/-- `set` past the end is the identity. -/
theorem set_ge (l : List (List Nat)) (a : Nat) (x : List Nat)
    (h : l.length ≤ a) : l.set a x = l := by
  induction l generalizing a with
  | nil => rfl
  | cons b rest ih =>
      cases a with
      | zero => simp at h
      | succ a => simp only [List.set_cons_succ]; rw [ih a (by simpa using h)]

/-- Membership after pushing `b` onto list `a` of the accumulator. -/
theorem mem_getD_pushSim (sl : List (List Nat)) (a b i j : Nat) :
    j ∈ (pushSim sl a b).getD i [] ↔
      j ∈ sl.getD i [] ∨ (i = a ∧ a < sl.length ∧ j = b) := by
  unfold pushSim
  by_cases ha : a < sl.length
  · by_cases hia : i = a
    · subst hia
      rw [getD_set_self _ _ _ ha]
      simp only [List.mem_append, List.mem_singleton]
      tauto
    · rw [getD_set_ne _ _ _ _ hia]
      tauto
  · rw [set_ge _ _ _ (le_of_not_lt ha)]
    tauto

/-- `pushSim` preserves the accumulator length. -/
theorem length_pushSim (sl : List (List Nat)) (a b : Nat) :
    (pushSim sl a b).length = sl.length := by
  simp [pushSim]

/-- The loop body of `find_similar_hashes` over one visited pair. -/
def hashStep (items : List FileItem) (maxd : Nat)
    (sl : List (List Nat)) (p : Nat × Nat) : List (List Nat) :=
  if p.2 ≠ p.1 then
    if (items.getD p.1 default).get_hash_distance (items.getD p.2 default) < maxd then
      pushSim (pushSim sl p.1 p.2) p.2 p.1
    else sl
  else sl

/-- A visited pair records a similarity: distinct indices with hash
distance below the threshold. -/
def hashCond (items : List FileItem) (maxd : Nat) (p : Nat × Nat) : Prop :=
  p.2 ≠ p.1 ∧
    (items.getD p.1 default).get_hash_distance (items.getD p.2 default) < maxd

instance (items : List FileItem) (maxd : Nat) (p : Nat × Nat) :
    Decidable (hashCond items maxd p) := by
  unfold hashCond; infer_instance

/-- `hashStep` preserves the accumulator length. -/
theorem length_hashStep (items : List FileItem) (maxd : Nat)
    (sl : List (List Nat)) (p : Nat × Nat) :
    (hashStep items maxd sl p).length = sl.length := by
  unfold hashStep
  split
  · split
    · rw [length_pushSim, length_pushSim]
    · rfl
  · rfl

/-- Membership in the accumulator after folding `hashStep` over a pair
list: either it was there initially, or some visited pair with
below-threshold distance connects the two indices (in either order, the
updated list's index being in range). -/
theorem mem_foldl_hashStep (items : List FileItem) (maxd : Nat)
    (P : List (Nat × Nat)) (sl : List (List Nat)) (i j : Nat) :
    j ∈ (P.foldl (hashStep items maxd) sl).getD i [] ↔
      j ∈ sl.getD i [] ∨
        ∃ p ∈ P, hashCond items maxd p ∧
          ((i = p.1 ∧ j = p.2 ∧ p.1 < sl.length) ∨
            (i = p.2 ∧ j = p.1 ∧ p.2 < sl.length)) := by
  induction P generalizing sl with
  | nil => simp
  | cons p P ih =>
      rw [List.foldl_cons, ih, length_hashStep]
      have hstep : j ∈ (hashStep items maxd sl p).getD i [] ↔
          j ∈ sl.getD i [] ∨ (hashCond items maxd p ∧
            ((i = p.1 ∧ j = p.2 ∧ p.1 < sl.length) ∨
              (i = p.2 ∧ j = p.1 ∧ p.2 < sl.length))) := by
        unfold hashStep hashCond
        by_cases h1 : p.2 ≠ p.1
        · simp only [if_pos h1]
          by_cases h2 : (items.getD p.1 default).get_hash_distance
              (items.getD p.2 default) < maxd
          · simp only [if_pos h2]
            rw [mem_getD_pushSim, mem_getD_pushSim, length_pushSim]
            constructor
            · rintro ((hj | ⟨hi1, hlt, hj1⟩) | ⟨hi1, hlt, hj1⟩)
              · exact Or.inl hj
              · exact Or.inr ⟨⟨h1, h2⟩, Or.inl ⟨hi1, hj1, hlt⟩⟩
              · exact Or.inr ⟨⟨h1, h2⟩, Or.inr ⟨hi1, hj1, hlt⟩⟩
            · rintro (hj | ⟨hc, ⟨hi1, hj1, hp1⟩ | ⟨hi1, hj1, hp2⟩⟩)
              · exact Or.inl (Or.inl hj)
              · exact Or.inl (Or.inr ⟨hi1, hp1, hj1⟩)
              · exact Or.inr ⟨hi1, hp2, hj1⟩
          · simp only [if_neg h2]
            constructor
            · exact fun hj => Or.inl hj
            · rintro (hj | ⟨⟨_, hc⟩, _⟩)
              · exact hj
              · exact absurd hc h2
        · simp only [if_neg h1]
          constructor
          · exact fun hj => Or.inl hj
          · rintro (hj | ⟨⟨hc, _⟩, _⟩)
            · exact hj
            · exact absurd hc h1
      rw [hstep]
      simp only [List.mem_cons]
      constructor
      · rintro ((hj | hc) | ⟨q, hq, hrest⟩)
        · exact Or.inl hj
        · exact Or.inr ⟨p, Or.inl rfl, hc⟩
        · exact Or.inr ⟨q, Or.inr hq, hrest⟩
      · rintro (hj | ⟨q, hq | hq, hrest⟩)
        · exact Or.inl (Or.inl hj)
        · exact Or.inl (Or.inr (hq ▸ hrest))
        · exact Or.inr ⟨q, hq, hrest⟩

end ItemSort

namespace ItemSort

/-- The hamming distance of bit sequences is symmetric. -/
theorem hashDist_comm (h1 h2 : List Bool) : hashDist h1 h2 = hashDist h2 h1 := by
  unfold hashDist
  induction h1 generalizing h2 with
  | nil => cases h2 <;> simp
  | cons a t ih =>
      cases h2 with
      | nil => simp
      | cons b t2 =>
          simp only [List.zip_cons_cons, List.countP_cons, ih t2]
          cases a <;> cases b <;> rfl

/-- `get_hash_distance` is symmetric. -/
theorem get_hash_distance_comm (x y : FileItem) :
    x.get_hash_distance y = y.get_hash_distance x := by
  unfold FileItem.get_hash_distance
  cases x.hash <;> cases y.hash <;> simp [hashDist_comm]

/-- The initial accumulator of the hash loop holds only empty lists. -/
theorem getD_replicate_nil (n i : Nat) :
    (List.replicate n ([] : List Nat)).getD i [] = [] := by
  induction n generalizing i with
  | zero => simp
  | succ n ih =>
      cases i with
      | zero => rfl
      | succ i => exact ih i

/-- Membership characterization of `find_similar_hashes`: `j` ends in item
`i`'s similar set exactly when `j ≠ i` and either it was there initially
or the pair was visited with hash distance below the threshold. -/
theorem find_similar_hashes_mem (items : List FileItem) (maxd : Nat)
    (i j : Nat) (hi : i < items.length) :
    j ∈ simAt (find_similar_hashes items maxd) i ↔
      j ≠ i ∧ (j ∈ simAt items i ∨
        (i < j ∧ j < items.length ∧ hashCond items maxd (i, j)) ∨
        (j < i ∧ i < items.length ∧ hashCond items maxd (j, i))) := by
  unfold find_similar_hashes
  have hsim : simAt (items.mapIdx fun i it =>
      (it.add_similar_vec ((hashLoop items maxd).getD i [])).clean_similars i) i =
      (((items.getD i default).add_similar_vec
        ((hashLoop items maxd).getD i [])).clean_similars i).similar := by
    unfold simAt
    rw [getD_mapIdx _ _ _ hi]
  rw [hsim, clean_mem]
  have hloop : hashLoop items maxd =
      (pairList items.length).foldl (hashStep items maxd)
        (List.replicate items.length []) := rfl
  simp only [FileItem.add_similar_vec, List.mem_append]
  constructor
  · rintro ⟨hne, hmem | hmem⟩
    · exact ⟨hne, Or.inl hmem⟩
    · rw [hloop, mem_foldl_hashStep, getD_replicate_nil,
        List.length_replicate] at hmem
      rcases hmem with hmem | ⟨p, hp, hcond, ⟨hi1, hj1, hlt⟩ | ⟨hi1, hj1, hlt⟩⟩
      · simp at hmem
      · have hpl := (mem_pairList _ _).mp hp
        have hpe : p = (i, j) := by
          cases p; simp_all
        subst hpe
        exact ⟨hne, Or.inr (Or.inl ⟨by simpa using hpl.1, hpl.2, hcond⟩)⟩
      · have hpl := (mem_pairList _ _).mp hp
        have hpe : p = (j, i) := by
          cases p; simp_all
        subst hpe
        exact ⟨hne, Or.inr (Or.inr ⟨by simpa using hpl.1, hlt, hcond⟩)⟩
  · rintro ⟨hne, hmem | ⟨hij, hjn, hcond⟩ | ⟨hji, hin, hcond⟩⟩
    · exact ⟨hne, Or.inl hmem⟩
    · refine ⟨hne, Or.inr ?_⟩
      rw [hloop, mem_foldl_hashStep, getD_replicate_nil, List.length_replicate]
      exact Or.inr ⟨(i, j), (mem_pairList _ _).mpr ⟨hij, hjn⟩, hcond,
        Or.inl ⟨rfl, rfl, hi⟩⟩
    · refine ⟨hne, Or.inr ?_⟩
      rw [hloop, mem_foldl_hashStep, getD_replicate_nil, List.length_replicate]
      exact Or.inr ⟨(j, i), (mem_pairList _ _).mpr ⟨hji, hin⟩, hcond,
        Or.inr ⟨rfl, rfl, hin⟩⟩

end ItemSort

namespace ItemSort

/-- If either item lacks a hash, the distance is the `u32::MAX` sentinel. -/
theorem get_hash_distance_eq_max (x y : FileItem)
    (h : x.hash.isSome = false ∨ y.hash.isSome = false) :
    x.get_hash_distance y = U32MAX := by
  unfold FileItem.get_hash_distance
  rcases h with h | h <;> cases hx : x.hash <;> cases hy : y.hash <;>
    simp_all

/-- **C4**: after `find_similar_hashes(max_diff_hash)` on an item list
with empty similar sets, for distinct in-range indices `i`, `j`: `j` is
in item `i`'s similar set exactly when both items have a hash and their
hash distance is strictly below `max_diff_hash` (so items without a hash
contribute nothing), and the resulting relation is symmetric. -/
theorem find_similar_hashes_c4 (items : List FileItem) (maxd : Nat)
    (hmax : maxd ≤ U32MAX)
    (hempty : ∀ it ∈ items, it.similar = [])
    (i j : Nat) (hi : i < items.length) (hj : j < items.length)
    (hij : i ≠ j) :
    (j ∈ simAt (find_similar_hashes items maxd) i ↔
      (items.getD i default).hash.isSome ∧
        (items.getD j default).hash.isSome ∧
        (items.getD i default).get_hash_distance (items.getD j default) <
          maxd) ∧
    (j ∈ simAt (find_similar_hashes items maxd) i ↔
      i ∈ simAt (find_similar_hashes items maxd) j) := by
  have hmemAt : ∀ a b, a < items.length → b ∉ simAt items a := by
    intro a b ha hmem
    have hin : items.getD a default ∈ items := by
      rw [List.getD_eq_getElem?_getD, List.getElem?_eq_getElem ha]
      simpa using List.getElem_mem ha
    have : simAt items a = [] := hempty _ hin
    rw [this] at hmem
    simp at hmem
  constructor
  · rw [find_similar_hashes_mem items maxd i j hi]
    constructor
    · rintro ⟨hne, hmem | ⟨_, _, _, hcond⟩ | ⟨_, _, _, hcond⟩⟩
      · exact absurd hmem (hmemAt i j hi)
      · -- distance between items i and j is below the threshold
        have hd : (items.getD i default).get_hash_distance
            (items.getD j default) < maxd := hcond
        refine ⟨?_, ?_, hd⟩
        · by_contra hx
          have := get_hash_distance_eq_max (items.getD i default)
            (items.getD j default) (Or.inl (by simpa using hx))
          omega
        · by_contra hx
          have := get_hash_distance_eq_max (items.getD i default)
            (items.getD j default) (Or.inr (by simpa using hx))
          omega
      · have hd : (items.getD i default).get_hash_distance
            (items.getD j default) < maxd := by
          rw [get_hash_distance_comm]
          exact hcond
        refine ⟨?_, ?_, hd⟩
        · by_contra hx
          have := get_hash_distance_eq_max (items.getD i default)
            (items.getD j default) (Or.inl (by simpa using hx))
          omega
        · by_contra hx
          have := get_hash_distance_eq_max (items.getD i default)
            (items.getD j default) (Or.inr (by simpa using hx))
          omega
    · rintro ⟨hx, hy, hd⟩
      refine ⟨fun h => hij h.symm, ?_⟩
      rcases Nat.lt_or_ge i j with hlt | hge
      · exact Or.inr (Or.inl ⟨hlt, hj, fun h => hij h.symm, hd⟩)
      · have hlt : j < i := by omega
        refine Or.inr (Or.inr ⟨hlt, hi, hij, ?_⟩)
        rw [get_hash_distance_comm]
        exact hd
  · rw [find_similar_hashes_mem items maxd i j hi,
      find_similar_hashes_mem items maxd j i hj]
    constructor
    · rintro ⟨hne, hmem | hA | hB⟩
      · exact absurd hmem (hmemAt i j hi)
      · exact ⟨hij, Or.inr (Or.inr hA)⟩
      · exact ⟨hij, Or.inr (Or.inl hB)⟩
    · rintro ⟨hne, hmem | hA | hB⟩
      · exact absurd hmem (hmemAt j i hj)
      · exact ⟨fun h => hij h.symm, Or.inr (Or.inr hA)⟩
      · exact ⟨fun h => hij h.symm, Or.inr (Or.inl hB)⟩

/-- A three-item list with two close hashes and one missing hash. -/
def hashTestItems : List FileItem :=
  [⟨"a.jpg", 0, true, [], some [true, false]⟩,
   ⟨"b.jpg", 0, true, [], some [true, true]⟩,
   ⟨"c.jpg", 0, true, [], none⟩]

/-- C4, witness: items 0 and 1 (hash distance 1 < 2) are recorded as
similar. -/
theorem find_similar_hashes_c4_witness :
    1 ∈ simAt (find_similar_hashes hashTestItems 2) 0 :=
  ((find_similar_hashes_c4 hashTestItems 2 (by decide) (by decide) 0 1
    (by decide) (by decide) (by decide)).1).mpr (by decide)

end ItemSort

namespace ItemSort

/-- Two items agree on every field except possibly `similar`. -/
def sameCore (a b : FileItem) : Prop :=
  a.path = b.path ∧ a.timestamp = b.timestamp ∧
    a.take_over = b.take_over ∧ a.hash = b.hash

theorem sameCore_refl (a : FileItem) : sameCore a a := ⟨rfl, rfl, rfl, rfl⟩

theorem sameCore_trans {a b c : FileItem} (h1 : sameCore a b)
    (h2 : sameCore b c) : sameCore a c := by
  obtain ⟨p1, t1, o1, s1⟩ := h1
  obtain ⟨p2, t2, o2, s2⟩ := h2
  exact ⟨p1.trans p2, t1.trans t2, o1.trans o2, s1.trans s2⟩

/-- Items that agree on all fields are equal. -/
theorem FileItem.eq_of_parts (a b : FileItem) (h1 : a.path = b.path)
    (h2 : a.timestamp = b.timestamp) (h3 : a.take_over = b.take_over)
    (h4 : a.similar = b.similar) (h5 : a.hash = b.hash) : a = b := by
  cases a; cases b; simp_all

/-- A `mapIdx` whose function only rewrites `similar` preserves the core
of every item. -/
theorem sameCore_mapIdx (l : List FileItem) (f : Nat → FileItem → FileItem)
    (hf : ∀ i it, sameCore (f i it) it) (i : Nat) :
    sameCore ((l.mapIdx f).getD i default) (l.getD i default) := by
  by_cases h : i < l.length
  · rw [getD_mapIdx _ _ _ h]
    exact hf i _
  · rw [getD_mapIdx_ge _ _ _ (le_of_not_lt h),
      List.getD_eq_getElem?_getD l, List.getElem?_eq_none (le_of_not_lt h)]
    exact sameCore_refl _

/-- `set_similar_range` preserves the core of every item. -/
theorem sameCore_set_similar_range (its : List FileItem) (lo hi i : Nat) :
    sameCore ((set_similar_range its lo hi).getD i default)
      (its.getD i default) := by
  unfold set_similar_range
  refine sameCore_mapIdx its _ (fun i it => ?_) i
  by_cases hc : lo ≤ i ∧ i < hi
  · simp [if_pos hc, FileItem.add_similar_range, sameCore]
  · simp [if_neg hc, sameCore]

/-- The scan preserves the core of every item. -/
theorem sameCore_fsScan (d : Int) (items : List FileItem) (k i : Nat) :
    sameCore ((fsScan d items k).2.getD i default) (items.getD i default) := by
  induction k with
  | zero => exact sameCore_refl _
  | succ k ih =>
      simp only [fsScan]
      split
      · exact sameCore_trans (sameCore_set_similar_range _ _ _ _) ih
      · exact ih

/-- `find_similar` preserves the core of every item. -/
theorem sameCore_find_similar (items : List FileItem) (d : Int) (i : Nat) :
    sameCore ((find_similar items d).getD i default) (items.getD i default) := by
  unfold find_similar
  by_cases he : items.isEmpty
  · rw [if_pos he]; exact sameCore_refl _
  · rw [if_neg he]
    refine sameCore_trans (sameCore_mapIdx _ _ (fun i it => ?_) i)
      (sameCore_trans (sameCore_set_similar_range _ _ _ _)
        (sameCore_fsScan _ _ _ _))
    simp [FileItem.clean_similars, sameCore]

/-- `find_similar_hashes` preserves the core of every item. -/
theorem sameCore_find_similar_hashes (items : List FileItem) (maxd : Nat)
    (i : Nat) :
    sameCore ((find_similar_hashes items maxd).getD i default)
      (items.getD i default) := by
  unfold find_similar_hashes
  refine sameCore_mapIdx _ _ (fun i it => ?_) i
  simp [FileItem.clean_similars, FileItem.add_similar_vec, sameCore]

/-- `find_similar` preserves the number of items. -/
theorem length_find_similar (items : List FileItem) (d : Int) :
    (find_similar items d).length = items.length := by
  unfold find_similar
  by_cases he : items.isEmpty
  · rw [if_pos he]
  · rw [if_neg he]
    rw [List.length_mapIdx, length_set_similar_range, fsScan_length]

/-- `find_similar_hashes` preserves the number of items. -/
theorem length_find_similar_hashes (items : List FileItem) (maxd : Nat) :
    (find_similar_hashes items maxd).length = items.length := by
  unfold find_similar_hashes
  rw [List.length_mapIdx]

/-- Every in-range similar set produced by `find_similar` is strictly
sorted (hence duplicate-free). -/
theorem find_similar_simAt_sorted (items : List FileItem) (d : Int) (i : Nat)
    (hi : i < items.length) (hne : ¬items.isEmpty) :
    (simAt (find_similar items d) i).Sorted (· < ·) := by
  unfold find_similar
  rw [if_neg hne]
  have hi' : i < (set_similar_range (fsScan d items items.length).2
      (fsScan d items items.length).1 items.length).length := by
    rw [length_set_similar_range, fsScan_length]; exact hi
  unfold simAt
  rw [getD_mapIdx _ _ _ hi']
  exact clean_sortedLt _ _

/-- Every in-range similar set produced by `find_similar_hashes` is
strictly sorted (hence duplicate-free). -/
theorem find_similar_hashes_simAt_sorted (items : List FileItem)
    (maxd : Nat) (i : Nat) (hi : i < items.length) :
    (simAt (find_similar_hashes items maxd) i).Sorted (· < ·) := by
  unfold find_similar_hashes simAt
  rw [getD_mapIdx _ _ _ hi]
  exact clean_sortedLt _ _

/-- Strictly sorted lists with the same members are equal. -/
theorem sortedLt_eq_of_mem (l1 l2 : List Nat) (h1 : l1.Sorted (· < ·))
    (h2 : l2.Sorted (· < ·)) (h : ∀ a, a ∈ l1 ↔ a ∈ l2) : l1 = l2 := by
  haveI : IsAntisymm Nat (· < ·) := ⟨fun a b hab hba => by omega⟩
  refine List.eq_of_perm_of_sorted ?_ h1 h2
  refine List.perm_of_nodup_nodup_toFinset_eq h1.nodup h2.nodup ?_
  ext a
  simp [List.mem_toFinset, h a]

end ItemSort

namespace ItemSort

/-- Out-of-range similar sets are empty. -/
theorem simAt_ge (l : List FileItem) (i : Nat) (h : l.length ≤ i) :
    simAt l i = [] := by
  unfold simAt
  rw [List.getD_eq_getElem?_getD, List.getElem?_eq_none h]
  rfl

/-- `noGap` depends only on the timestamps. -/
theorem noGap_congr (d : Int) (X items : List FileItem)
    (hts : ∀ k, tsAt X k = tsAt items k) (i j : Nat) :
    noGap d X i j ↔ noGap d items i j := by
  unfold noGap bdry
  constructor <;> intro h m h1 h2 <;> have := h m h1 h2 <;>
    rw [hts, hts] at * <;> exact this

/-- `get_hash_distance` depends only on the hashes. -/
theorem ghd_congr (a a' b b' : FileItem) (ha : a.hash = a'.hash)
    (hb : b.hash = b'.hash) :
    a.get_hash_distance b = a'.get_hash_distance b' := by
  unfold FileItem.get_hash_distance
  rw [ha, hb]

/-- **C5**: both clustering passes are idempotent — running `find_similar`
or `find_similar_hashes` twice with the same parameters on the same list
gives the same result as running it once — and after any run every item's
similar set is duplicate-free and never contains the item's own index. -/
theorem clustering_c5 (items : List FileItem) (d : Int) (maxd : Nat) :
    find_similar (find_similar items d) d = find_similar items d ∧
    find_similar_hashes (find_similar_hashes items maxd) maxd =
      find_similar_hashes items maxd ∧
    (∀ i, (simAt (find_similar items d) i).Nodup ∧
      i ∉ simAt (find_similar items d) i) ∧
    (∀ i, (simAt (find_similar_hashes items maxd) i).Nodup ∧
      i ∉ simAt (find_similar_hashes items maxd) i) := by
  by_cases hemp : items.isEmpty
  · have : items = [] := by
      cases items with
      | nil => rfl
      | cons a l => simp at hemp
    subst this
    have h0 : find_similar_hashes ([] : List FileItem) maxd = [] := rfl
    refine ⟨by simp [find_similar], by simp only [h0], ?_, ?_⟩
    · intro i
      constructor
      · have : simAt (find_similar [] d) i = [] := by
          simp [find_similar]
          exact simAt_ge [] i (by simp)
        rw [this]; exact List.nodup_nil
      · have : simAt (find_similar [] d) i = [] := by
          simp [find_similar]
          exact simAt_ge [] i (by simp)
        rw [this]; simp
    · intro i
      constructor
      · have : simAt (find_similar_hashes [] maxd) i = [] :=
          simAt_ge _ i (by rw [length_find_similar_hashes]; simp)
        rw [this]; exact List.nodup_nil
      · have : simAt (find_similar_hashes [] maxd) i = [] :=
          simAt_ge _ i (by rw [length_find_similar_hashes]; simp)
        rw [this]; simp
  · have hlen0 : 0 < items.length := by
      cases items with
      | nil => simp at hemp
      | cons a l => simp
    have hXlen : (find_similar items d).length = items.length :=
      length_find_similar items d
    have hXemp : ¬(find_similar items d).isEmpty := by
      intro h
      have : (find_similar items d).length = 0 := by
        cases hfe : find_similar items d with
        | nil => simp
        | cons a l => rw [hfe] at h; simp at h
      omega
    have htsX : ∀ k, tsAt (find_similar items d) k = tsAt items k :=
      fun k => (sameCore_find_similar items d k).2.1
    have hHlen : (find_similar_hashes items maxd).length = items.length :=
      length_find_similar_hashes items maxd
    refine ⟨?_, ?_, ?_, ?_⟩
    · -- idempotence of find_similar
      apply List.ext_getElem
      · rw [length_find_similar, hXlen]
      · intro n h1 h2
        have hnX : n < (find_similar items d).length := h2
        have hnI : n < items.length := by omega
        have hgd1 : (find_similar (find_similar items d) d)[n] =
            (find_similar (find_similar items d) d).getD n default := by
          rw [List.getD_eq_getElem?_getD, List.getElem?_eq_getElem h1]
          rfl
        have hgd2 : (find_similar items d)[n] =
            (find_similar items d).getD n default := by
          rw [List.getD_eq_getElem?_getD, List.getElem?_eq_getElem h2]
          rfl
        rw [hgd1, hgd2]
        have hcore := sameCore_find_similar (find_similar items d) d n
        refine FileItem.eq_of_parts _ _ hcore.1 hcore.2.1 hcore.2.2.1 ?_
          hcore.2.2.2
        have hs1 : ((find_similar (find_similar items d) d).getD n
            default).similar = simAt (find_similar (find_similar items d) d) n :=
          rfl
        have hs2 : ((find_similar items d).getD n default).similar =
            simAt (find_similar items d) n := rfl
        rw [hs1, hs2]
        refine sortedLt_eq_of_mem _ _
          (find_similar_simAt_sorted _ d n (by omega) hXemp)
          (find_similar_simAt_sorted _ d n hnI hemp) ?_
        intro a
        rw [find_similar_mem (find_similar items d) d n a hnX,
          find_similar_mem items d n a hnI]
        have hng := noGap_congr d (find_similar items d) items htsX n a
        rw [hXlen, hng]
        tauto
    · -- idempotence of find_similar_hashes
      apply List.ext_getElem
      · rw [length_find_similar_hashes, hHlen]
      · intro n h1 h2
        have hnH : n < (find_similar_hashes items maxd).length := h2
        have hnI : n < items.length := by omega
        have hgd1 : (find_similar_hashes (find_similar_hashes items maxd)
            maxd)[n] = (find_similar_hashes (find_similar_hashes items maxd)
            maxd).getD n default := by
          rw [List.getD_eq_getElem?_getD, List.getElem?_eq_getElem h1]
          rfl
        have hgd2 : (find_similar_hashes items maxd)[n] =
            (find_similar_hashes items maxd).getD n default := by
          rw [List.getD_eq_getElem?_getD, List.getElem?_eq_getElem h2]
          rfl
        rw [hgd1, hgd2]
        have hcore := sameCore_find_similar_hashes
          (find_similar_hashes items maxd) maxd n
        refine FileItem.eq_of_parts _ _ hcore.1 hcore.2.1 hcore.2.2.1 ?_
          hcore.2.2.2
        have hs1 : ((find_similar_hashes (find_similar_hashes items maxd)
            maxd).getD n default).similar =
            simAt (find_similar_hashes (find_similar_hashes items maxd)
              maxd) n := rfl
        have hs2 : ((find_similar_hashes items maxd).getD n default).similar =
            simAt (find_similar_hashes items maxd) n := rfl
        rw [hs1, hs2]
        refine sortedLt_eq_of_mem _ _
          (find_similar_hashes_simAt_sorted _ maxd n (by omega))
          (find_similar_hashes_simAt_sorted _ maxd n hnI) ?_
        intro a
        rw [find_similar_hashes_mem (find_similar_hashes items maxd) maxd n a
          hnH, find_similar_hashes_mem items maxd n a hnI]
        have hcond : ∀ p : Nat × Nat,
            hashCond (find_similar_hashes items maxd) maxd p ↔
              hashCond items maxd p := by
          intro p
          unfold hashCond
          rw [ghd_congr _ (items.getD p.1 default) _ (items.getD p.2 default)
            (sameCore_find_similar_hashes items maxd p.1).2.2.2
            (sameCore_find_similar_hashes items maxd p.2).2.2.2]
        rw [hHlen, hcond, hcond]
        tauto
    · -- nodup and no self index, time pass
      intro i
      by_cases hiI : i < items.length
      · refine ⟨(find_similar_simAt_sorted items d i hiI hemp).nodup, ?_⟩
        rw [find_similar_mem items d i i hiI]
        rintro ⟨hne, _⟩
        exact hne rfl
      · have : simAt (find_similar items d) i = [] :=
          simAt_ge _ i (by omega)
        rw [this]
        exact ⟨List.nodup_nil, by simp⟩
    · -- nodup and no self index, hash pass
      intro i
      by_cases hiI : i < items.length
      · refine ⟨(find_similar_hashes_simAt_sorted items maxd i hiI).nodup, ?_⟩
        rw [find_similar_hashes_mem items maxd i i hiI]
        rintro ⟨hne, _⟩
        exact hne rfl
      · have : simAt (find_similar_hashes items maxd) i = [] :=
          simAt_ge _ i (by omega)
        rw [this]
        exact ⟨List.nodup_nil, by simp⟩

end ItemSort

namespace ItemSort

/-- Model of `chrono::NaiveDate`: a calendar date. -/
structure NDate where
  year : Int
  month : Nat
  day : Nat
deriving DecidableEq, Repr

instance : Inhabited NDate := ⟨⟨1970, 1, 1⟩⟩

/-- Lexicographic date comparison (`NaiveDate`'s `<=`). -/
def NDate.le (a b : NDate) : Bool :=
  if a.year < b.year then true
  else if b.year < a.year then false
  else if a.month < b.month then true
  else if b.month < a.month then false
  else decide (a.day ≤ b.day)

/-- Model of `Event` (src/item_sort_list/event.rs). -/
structure Event where
  name : String
  start_date : NDate
  end_date : NDate
deriving DecidableEq, Repr

instance : Inhabited Event := ⟨⟨"", default, default⟩⟩

/-- `Event::contains`: `start_date <= date && date <= end_date`. -/
def Event.contains (e : Event) (date : NDate) : Bool :=
  e.start_date.le date && date.le e.end_date

/-- Civil-from-days (the standard Gregorian algorithm used by `chrono`):
the calendar date of a day count relative to 1970-01-01. -/
def civilFromDays (z0 : Int) : NDate :=
  let z : Int := z0 + 719468
  let era : Int := Int.ediv z 146097
  let doe : Nat := (z - era * 146097).toNat
  let yoe : Nat := (doe - doe / 1460 + doe / 36524 - doe / 146096) / 365
  let y : Int := era * 400 + yoe
  let doy : Nat := doe - (365 * yoe + yoe / 4 - yoe / 100)
  let mp : Nat := (5 * doy + 2) / 153
  let d : Nat := doy - (153 * mp + 2) / 5 + 1
  let m : Nat := if mp < 10 then mp + 3 else mp - 9
  ⟨if m ≤ 2 then y + 1 else y, m, d⟩

/-- `DateTime::from_timestamp(ts, 0).date_naive()`: the UTC calendar date
of a unix timestamp (floor division by 86400 seconds). -/
def dateOfTimestamp (ts : Int) : NDate :=
  civilFromDays (Int.ediv ts 86400)

/-- Model of the `Format` enum (src/item_sort_list/timestamp.rs). -/
inductive Format where
  | Date
  | DateTime
  | Year
  | YearAndMonth
  | YearAndQuarter
  | Month
deriving DecidableEq, Repr

/-- Two-digit zero-padded decimal (chrono `%m`, `%d`, `%H`, ...). -/
def pad2 (n : Nat) : String :=
  if n < 10 then "0" ++ toString n else toString n

/-- Four-digit zero-padded decimal (chrono `%Y` for non-negative years). -/
def pad4 (n : Nat) : String :=
  if n < 10 then "000" ++ toString n
  else if n < 100 then "00" ++ toString n
  else if n < 1000 then "0" ++ toString n
  else toString n

/-- chrono `%Y`. -/
def yearStr (y : Int) : String :=
  if y < 0 then "-" ++ pad4 (-y).toNat else pad4 y.toNat

/-- chrono `%m-%d` of a date. -/
def mdStr (d : NDate) : String := pad2 d.month ++ "-" ++ pad2 d.day

/-- chrono `%Y-%m-%d` of a date. -/
def ymdStr (d : NDate) : String := yearStr d.year ++ "-" ++ mdStr d

/-- `timestamp_to_string` (src/item_sort_list/timestamp.rs): format a unix
timestamp with one of the `Format` patterns; `YearAndQuarter` appends
`"-Q"` and `(month - 1) / 3 + 1`.  (chrono's out-of-range guard, which
yields `"???"` beyond its representable range, is not modelled: all
claims use in-range timestamps.) -/
def timestamp_to_string (ts : Int) (fmt : Format) : String :=
  let dt := dateOfTimestamp ts
  let secs : Nat := (Int.emod ts 86400).toNat
  match fmt with
  | .Date => ymdStr dt
  | .DateTime =>
      ymdStr dt ++ " " ++ pad2 (secs / 3600) ++ ":" ++
        pad2 (secs % 3600 / 60) ++ ":" ++ pad2 (secs % 60)
  | .Year => yearStr dt.year
  | .YearAndMonth => yearStr dt.year ++ "-" ++ pad2 dt.month
  | .YearAndQuarter => yearStr dt.year ++ "-Q" ++ toString ((dt.month - 1) / 3 + 1)
  | .Month => pad2 dt.month

/-- Model of the `DirectoryNames` enum
(src/item_sort_list/item_list.rs). -/
inductive DirectoryNames where
  | YearAndMonth
  | Year
  | YearMonthAndDay
  | YearAndQuarter
  | YearAndMonthInSubdirectory
deriving DecidableEq, Repr

/-- Model of `ItemList`, restricted to the fields the verified operations
use (the base `path` field plays no role in them). -/
structure ItemList where
  items : List FileItem
  events : List Event

/-- `ItemList::get_event`: the first event whose date range contains the
item's timestamp date. -/
def ItemList.get_event (il : ItemList) (item : FileItem) : Option Event :=
  il.events.find? fun event => event.contains (dateOfTimestamp item.timestamp)

/-- `get_sub_path` (src/item_sort_list/sieve.rs, lines 154-215): the
destination sub-directories for one item: the matched event's date span
and name if an event covers the item's date, else the `DirectoryNames`
policy applied to the timestamp (with the month as a second nested
component for `YearAndMonthInSubdirectory`). -/
def get_sub_path (il : ItemList) (item : FileItem)
    (directory_names : DirectoryNames) : List String :=
  match il.get_event item with
  | some event =>
      if directory_names = .YearAndMonthInSubdirectory then
        [yearStr event.start_date.year,
         if event.start_date ≠ event.end_date then
           mdStr event.start_date ++ " - " ++
             (if event.start_date.year ≠ event.end_date.year then
               ymdStr event.end_date
             else mdStr event.end_date) ++ " " ++ event.name
         else mdStr event.start_date ++ " " ++ event.name]
      else if event.start_date ≠ event.end_date then
        [ymdStr event.start_date ++ " - " ++ ymdStr event.end_date ++ " " ++
          event.name]
      else
        [ymdStr event.start_date ++ " " ++ event.name]
  | none =>
      let format := match directory_names with
        | .YearAndMonth => Format.YearAndMonth
        | .Year => Format.Year
        | .YearMonthAndDay => Format.Date
        | .YearAndQuarter => Format.YearAndQuarter
        | .YearAndMonthInSubdirectory => Format.Year
      [timestamp_to_string item.timestamp format] ++
        (if directory_names = .YearAndMonthInSubdirectory then
          [timestamp_to_string item.timestamp Format.Month]
        else [])

end ItemSort

namespace ItemSort

/-- `List.find?` characterized: the result is a member satisfying the
predicate, at a position before which every element fails it. -/
theorem find?_first {α : Type} [Inhabited α] (p : α → Bool) (l : List α)
    (a : α) (h : l.find? p = some a) :
    a ∈ l ∧ p a = true ∧
      ∃ k, k < l.length ∧ l.getD k default = a ∧
        ∀ j, j < k → p (l.getD j default) = false := by
  induction l with
  | nil => simp at h
  | cons b rest ih =>
      cases hb : p b
      · rw [List.find?_cons, hb] at h
        obtain ⟨hmem, hpa, k, hk, hget, hprev⟩ := ih h
        refine ⟨List.mem_cons_of_mem _ hmem, hpa, k + 1, by simpa using hk,
          hget, ?_⟩
        intro j hj
        cases j with
        | zero => exact hb
        | succ j => exact hprev j (by omega)
      · rw [List.find?_cons, hb] at h
        have hab : b = a := by simpa using h
        subst hab
        exact ⟨List.mem_cons_self _ _, hb, 0, by simp, rfl, by omega⟩

/-- The single-day event of the `get_sub_path` unit test. -/
def c6Event : Event := ⟨"Test1", ⟨2021, 9, 14⟩, ⟨2021, 9, 14⟩⟩

/-- Item list holding only the test event. -/
def c6List : ItemList := ⟨[], [c6Event]⟩

/-- A file timestamped 2021-09-14 00:00 UTC. -/
def c6ItemOnEvent : FileItem := ⟨"a.jpg", 1631577600, true, [], none⟩

/-- A file timestamped 2021-09-13 23:59 UTC. -/
def c6ItemOffEvent : FileItem := ⟨"b.jpg", 1631577540, true, [], none⟩

/-- **C6**: a file whose timestamp date is covered by an event maps to the
first matching event's date-span-and-name sub-path (single date when the
span is one day); otherwise the sub-path comes from the `DirectoryNames`
policy applied to the timestamp.  Concretely, with event "Test1" on
2021-09-14, a file of that day maps to `"2021-09-14 Test1"`, and a file
at 2021-09-13 23:59 under `YearAndMonth` maps to `"2021-09"`. -/
theorem get_sub_path_c6 :
    get_sub_path c6List c6ItemOnEvent .YearAndMonth = ["2021-09-14 Test1"] ∧
    get_sub_path c6List c6ItemOffEvent .YearAndMonth = ["2021-09"] ∧
    ∀ (il : ItemList) (item : FileItem) (dn : DirectoryNames) (e : Event),
      (il.get_event item = some e →
        e ∈ il.events ∧
        e.contains (dateOfTimestamp item.timestamp) = true ∧
        (∃ k, k < il.events.length ∧ il.events.getD k default = e ∧
          ∀ j, j < k →
            (il.events.getD j default).contains
              (dateOfTimestamp item.timestamp) = false) ∧
        (dn ≠ .YearAndMonthInSubdirectory →
          get_sub_path il item dn =
            [if e.start_date = e.end_date then
                ymdStr e.start_date ++ " " ++ e.name
              else
                ymdStr e.start_date ++ " - " ++ ymdStr e.end_date ++ " " ++
                  e.name])) ∧
      (il.get_event item = none →
        (∀ e' ∈ il.events,
          e'.contains (dateOfTimestamp item.timestamp) = false) ∧
        get_sub_path il item dn =
          [timestamp_to_string item.timestamp
            (match dn with
              | .YearAndMonth => Format.YearAndMonth
              | .Year => Format.Year
              | .YearMonthAndDay => Format.Date
              | .YearAndQuarter => Format.YearAndQuarter
              | .YearAndMonthInSubdirectory => Format.Year)] ++
          (if dn = .YearAndMonthInSubdirectory then
            [timestamp_to_string item.timestamp Format.Month]
          else [])) := by
  refine ⟨by decide, by decide, ?_⟩
  intro il item dn e
  constructor
  · intro h
    obtain ⟨hmem, hp, hfirst⟩ := find?_first _ _ _ h
    refine ⟨hmem, hp, hfirst, ?_⟩
    intro hdn
    unfold get_sub_path
    rw [h]
    simp only [if_neg hdn]
    by_cases hse : e.start_date = e.end_date
    · simp [hse]
    · simp [hse]
  · intro h
    constructor
    · intro e' he'
      have := List.find?_eq_none.mp h e' he'
      simpa using this
    · unfold get_sub_path
      rw [h]

end ItemSort

namespace ItemSort

/-- C6, witness: the general event rule applied to the concrete test
event (single-day span and name) under the `Year` policy. -/
theorem get_sub_path_c6_witness :
    get_sub_path c6List c6ItemOnEvent .Year =
      [if c6Event.start_date = c6Event.end_date then
          ymdStr c6Event.start_date ++ " " ++ c6Event.name
        else
          ymdStr c6Event.start_date ++ " - " ++ ymdStr c6Event.end_date ++
            " " ++ c6Event.name] :=
  ((get_sub_path_c6.2.2 c6List c6ItemOnEvent .Year c6Event).1
    (by decide)).2.2.2 (by decide)

end ItemSort

namespace SieveFs

/-- A destination path, kept in the parsed form `check_target`
manipulates: parent directory, file stem and extension (the Rust code
reassembles the file name as `stem ++ "_." ++ extension` on a retry). -/
structure TPath where
  parent : String
  stem : String
  ext : String
deriving DecidableEq, Repr

/-- One file of the modelled filesystem: its path and its bytes (the
file's size is the length of its content). -/
structure TFile where
  path : TPath
  content : List Nat
deriving DecidableEq, Repr

/-- `Path::exists`. -/
def fsExists (fs : List TFile) (p : TPath) : Bool :=
  fs.any fun f => decide (f.path = p)

/-- `File::open` + `read_to_end` (and `metadata`, via the length). -/
def fsLookup (fs : List TFile) (p : TPath) : Option (List Nat) :=
  (fs.find? fun f => decide (f.path = p)).map (·.content)

/-- The I/O errors arising in `FileSieveIO`. -/
inductive SieveErr where
  | notFound (p : TPath)
  | alreadyExists (p : TPath)
deriving DecidableEq, Repr

/-- `FileSieveIO::different` (src/item_sort_list/sieve.rs, lines 23-35):
if the sizes agree, compare the contents; a size mismatch is "different"
without reading; a missing file is an error. -/
def different (fs : List TFile) (f1 f2 : TPath) : Except SieveErr Bool :=
  match fsLookup fs f1 with
  | none => .error (.notFound f1)
  | some c1 =>
      match fsLookup fs f2 with
      | none => .error (.notFound f2)
      | some c2 =>
          if c1.length = c2.length then .ok (decide (c1 ≠ c2)) else .ok true

/-- Longest stem among the files present (termination measure for
`check_target`). -/
def maxStemLen (fs : List TFile) : Nat :=
  fs.foldr (fun f acc => max f.path.stem.length acc) 0

/-- An existing path's stem is at most the longest stem. -/
theorem stemLen_le_of_exists (fs : List TFile) (p : TPath)
    (h : fsExists fs p = true) : p.stem.length ≤ maxStemLen fs := by
  induction fs with
  | nil => simp [fsExists] at h
  | cons f rest ih =>
      simp only [fsExists, List.any_cons, Bool.or_eq_true] at h
      simp only [maxStemLen, List.foldr_cons]
      rcases h with h | h
      · have : f.path = p := by simpa using h
        rw [← this]
        exact le_max_left _ _
      · exact le_trans (ih h) (le_max_right _ _)

/-- `FileSieveIO::check_target` (src/item_sort_list/sieve.rs, lines
37-59): while the destination exists and differs from the source, retry
with `_` appended to the stem; if an existing destination has identical
content, fail with an "already exists" error; return the final
destination path otherwise.  (Termination: each retry lengthens the stem,
and an existing path's stem is bounded by the longest stem on the finite
filesystem.) -/
def check_target (fs : List TFile) (src : TPath) (dest : TPath) :
    Except SieveErr TPath :=
  if h : fsExists fs dest then
    match different fs src dest with
    | .error e => .error e
    | .ok true => check_target fs src ⟨dest.parent, dest.stem ++ "_", dest.ext⟩
    | .ok false => .error (.alreadyExists dest)
  else .ok dest
termination_by maxStemLen fs + 1 - dest.stem.length
decreasing_by
  have hle : dest.stem.length ≤ maxStemLen fs := stemLen_le_of_exists fs dest h
  simp only [String.length_append]
  have hone : "_".length = 1 := rfl
  omega

/-- `FileSieveIO::copy`: find a collision-free target, then copy the
source bytes there (error if the source is missing).  Returns the updated
filesystem and the target actually written. -/
def sieve_copy (fs : List TFile) (src dest : TPath) :
    Except SieveErr (List TFile × TPath) :=
  match check_target fs src dest with
  | .error e => .error e
  | .ok target =>
      match fsLookup fs src with
      | none => .error (.notFound src)
      | some c => .ok (⟨target, c⟩ :: fs, target)

end SieveFs

namespace SieveFs

/-- **C7**: on copy/move with an existing destination: differing sizes
mean "different" without content comparison; differing contents make
`check_target` retry with a `_`-suffixed stem (recursively); identical
contents yield a "destination file already exists" error and no write. -/
theorem check_target_c7 :
    (∀ (fs : List TFile) (p1 p2 : TPath) (c1 c2 : List Nat),
      fsLookup fs p1 = some c1 → fsLookup fs p2 = some c2 →
      c1.length ≠ c2.length → different fs p1 p2 = .ok true) ∧
    (∀ (fs : List TFile) (src dest : TPath), fsExists fs dest = true →
      different fs src dest = .ok true →
      check_target fs src dest =
        check_target fs src ⟨dest.parent, dest.stem ++ "_", dest.ext⟩) ∧
    (∀ (fs : List TFile) (src dest : TPath), fsExists fs dest = true →
      different fs src dest = .ok false →
      check_target fs src dest = .error (.alreadyExists dest) ∧
      sieve_copy fs src dest = .error (.alreadyExists dest)) := by
  refine ⟨?_, ?_, ?_⟩
  · intro fs p1 p2 c1 c2 h1 h2 hne
    unfold different
    rw [h1, h2]
    show (if c1.length = c2.length then Except.ok (decide (c1 ≠ c2))
      else Except.ok true) = Except.ok true
    rw [if_neg hne]
  · intro fs src dest hex hdiff
    rw [check_target]
    simp only [hex, dite_true, hdiff]
  · intro fs src dest hex hdiff
    have hct : check_target fs src dest = .error (.alreadyExists dest) := by
      rw [check_target]
      simp only [hex, dite_true, hdiff]
    refine ⟨hct, ?_⟩
    unfold sieve_copy
    rw [hct]

/-- A concrete filesystem where both `file.jpg` and `file_.jpg` exist in
the target directory with contents different from the source. -/
def c7fs : List TFile :=
  [⟨⟨"src", "file", "jpg"⟩, [1, 2, 3]⟩,
   ⟨⟨"dst", "file", "jpg"⟩, [4, 5]⟩,
   ⟨⟨"dst", "file_", "jpg"⟩, [6, 7, 8, 9]⟩]

/-- C7, witness: the retry rule applied twice on the concrete filesystem
(the suffixed name also collides), then the final free name is taken. -/
theorem check_target_c7_witness :
    check_target c7fs ⟨"src", "file", "jpg"⟩ ⟨"dst", "file", "jpg"⟩ =
      check_target c7fs ⟨"src", "file", "jpg"⟩ ⟨"dst", "file" ++ "_", "jpg"⟩ :=
  check_target_c7.2.1 c7fs ⟨"src", "file", "jpg"⟩ ⟨"dst", "file", "jpg"⟩
    (by decide) rfl

end SieveFs

namespace ItemSort

/-- Model of the `SieveMethod` enum (src/item_sort_list/item_list.rs). -/
inductive SieveMethod where
  | Copy
  | Move
  | MoveAndDelete
  | Delete
deriving DecidableEq, Repr

/-- The sieve I/O collaborator (`SieveIO` trait), as arbitrary pure
behaviour: `copy` and `move` return the (possibly rewritten by
`check_target`) destination together with the result, the others just a
result.  Errors are their display strings. -/
structure MSieveIO where
  copy : String → String → String × Except String Unit
  move : String → String → String × Except String Unit
  remove_file : String → Except String Unit
  create_dir_all : String → Except String Unit

/-- `Path::file_name`: the last `/`-separated component. -/
def fileName (p : String) : String := (p.splitOn "/").getLastD ""

/-- `{:?}` (Debug) rendering of a path: the string in quotes (escaping of
special characters inside the path is not modelled). -/
def pathDbg (p : String) : String := "\"" ++ p ++ "\""

/-- The destination path of one item: sieve root, the item's sub-path
components, and the source file name. -/
def targetFor (il : ItemList) (path : String) (dn : DirectoryNames)
    (item : FileItem) : String :=
  path ++ "/" ++ String.intercalate "/" (get_sub_path il item dn) ++ "/" ++
    fileName item.path

/-- The progress messages one item contributes in the non-`Delete`
methods: an error line on a failed copy/move/delete followed by the
transfer line, or a delete line for discarded items under
`MoveAndDelete`. -/
def perItemMsgs (il : ItemList) (path : String) (method : SieveMethod)
    (dn : DirectoryNames) (io : MSieveIO) (itemDisp : FileItem → String)
    (item : FileItem) : List String :=
  if item.take_over then
    let source := item.path
    let target := targetFor il path dn item
    if method = SieveMethod.Copy then
      let r := io.copy source target
      (match r.2 with
        | .ok _ => []
        | .error e => ["Error copying " ++ itemDisp item ++ ": " ++ e]) ++
        [pathDbg source ++ " -> " ++ pathDbg r.1]
    else
      let r := io.move source target
      (match r.2 with
        | .ok _ => []
        | .error e => ["Error moving " ++ itemDisp item ++ ": " ++ e]) ++
        [pathDbg source ++ " -> " ++ pathDbg r.1]
  else if method = SieveMethod.MoveAndDelete then
    ["Delete " ++ pathDbg item.path] ++
      (match io.remove_file item.path with
        | .ok _ => []
        | .error e => ["Error deleting " ++ itemDisp item ++ ": " ++ e])
  else []

/-- The progress messages one item contributes under the `Delete`
method. -/
def perItemMsgsDelete (io : MSieveIO) (itemDebug : FileItem → String)
    (item : FileItem) : List String :=
  if item.take_over then []
  else
    ["Delete " ++ pathDbg item.path] ++
      (match io.remove_file item.path with
        | .ok _ => []
        | .error e => ["Error deleting " ++ itemDebug item ++ ": " ++ e])

/-- The full progress stream of `sieve` (src/item_sort_list/sieve.rs,
lines 91-149): the per-item messages of the selected method in item
order, then the final `"Done"`.  The `prepare_path` failures go to
`println!`, not to the progress callback, so they contribute no
messages; the I/O collaborator is modelled as pure behaviour; the
`Display`/`Debug` renderings of a `FileItem` (which read the file size
from the filesystem) are abstracted as the `itemDisp`/`itemDebug`
parameters. -/
def sieveMsgs (il : ItemList) (path : String) (method : SieveMethod)
    (dn : DirectoryNames) (io : MSieveIO)
    (itemDisp itemDebug : FileItem → String) : List String :=
  (if method ≠ SieveMethod.Delete then
    il.items.foldl
      (fun acc item => acc ++ perItemMsgs il path method dn io itemDisp item)
      []
  else
    il.items.foldl
      (fun acc item => acc ++ perItemMsgsDelete io itemDebug item) []) ++
  ["Done"]

end ItemSort

namespace ItemSort

/-- A string of length other than 4 is not `"Done"`. -/
theorem ne_done_of_length {s : String} (h : s.length ≠ 4) : s ≠ "Done" :=
  fun he => h (by rw [he]; rfl)

/-- Accumulating a fold of appends is concatenation of the per-element
lists. -/
theorem foldl_append_eq {α β : Type} (g : α → List β) (l : List α)
    (acc : List β) :
    l.foldl (fun a x => a ++ g x) acc = acc ++ l.flatMap g := by
  induction l generalizing acc with
  | nil => simp
  | cons x l ih => simp [List.flatMap_cons, ih]

/-- Every progress message is longer than `"Done"`: helper applying the
length computation. -/
theorem len_ne_done (s : String) (h : 4 < s.length) : s ≠ "Done" :=
  ne_done_of_length (by omega)

/-- No per-item progress message of the non-`Delete` methods is
`"Done"` (every one of them is strictly longer). -/
theorem perItemMsgs_ne_done (il : ItemList) (path : String)
    (method : SieveMethod) (dn : DirectoryNames) (io : MSieveIO)
    (itemDisp : FileItem → String) (item : FileItem) :
    ∀ s ∈ perItemMsgs il path method dn io itemDisp item, s ≠ "Done" := by
  intro s hs
  have hq : ("\"" : String).length = 1 := rfl
  have h14 : ("Error copying " : String).length = 14 := rfl
  have h13 : ("Error moving " : String).length = 13 := rfl
  have h15 : ("Error deleting " : String).length = 15 := rfl
  have h7 : ("Delete " : String).length = 7 := rfl
  have h4 : (" -> " : String).length = 4 := rfl
  have h2 : (": " : String).length = 2 := rfl
  unfold perItemMsgs at hs
  by_cases hto : item.take_over <;> simp only [hto, if_true, if_false,
    Bool.false_eq_true] at hs
  · by_cases hm : method = SieveMethod.Copy <;>
      simp only [hm, if_true, if_false] at hs
    · rcases hcp : (io.copy item.path (targetFor il path dn item)).2 with e | u
      · rw [hcp] at hs
        simp only [List.mem_append, List.mem_singleton] at hs
        rcases hs with hs | hs
        · subst hs
          apply len_ne_done
          simp only [String.length_append]
          omega
        · subst hs
          apply len_ne_done
          simp only [pathDbg, String.length_append]
          omega
      · rw [hcp] at hs
        simp only [List.nil_append, List.mem_singleton] at hs
        subst hs
        apply len_ne_done
        simp only [pathDbg, String.length_append]
        omega
    · rcases hcp : (io.move item.path (targetFor il path dn item)).2 with e | u
      · rw [hcp] at hs
        simp only [List.mem_append, List.mem_singleton] at hs
        rcases hs with hs | hs
        · subst hs
          apply len_ne_done
          simp only [String.length_append]
          omega
        · subst hs
          apply len_ne_done
          simp only [pathDbg, String.length_append]
          omega
      · rw [hcp] at hs
        simp only [List.nil_append, List.mem_singleton] at hs
        subst hs
        apply len_ne_done
        simp only [pathDbg, String.length_append]
        omega
  · by_cases hm : method = SieveMethod.MoveAndDelete <;>
      simp only [hm, if_true, if_false] at hs
    · rcases hrm : io.remove_file item.path with e | u
      · rw [hrm] at hs
        simp only [List.mem_append, List.mem_singleton] at hs
        rcases hs with hs | hs
        · subst hs
          apply len_ne_done
          simp only [pathDbg, String.length_append]
          omega
        · subst hs
          apply len_ne_done
          simp only [String.length_append]
          omega
      · rw [hrm] at hs
        simp only [List.append_nil, List.mem_singleton] at hs
        subst hs
        apply len_ne_done
        simp only [pathDbg, String.length_append]
        omega
    · simp at hs

/-- No per-item progress message of the `Delete` method is `"Done"`. -/
theorem perItemMsgsDelete_ne_done (io : MSieveIO)
    (itemDebug : FileItem → String) (item : FileItem) :
    ∀ s ∈ perItemMsgsDelete io itemDebug item, s ≠ "Done" := by
  intro s hs
  have hq : ("\"" : String).length = 1 := rfl
  have h15 : ("Error deleting " : String).length = 15 := rfl
  have h7 : ("Delete " : String).length = 7 := rfl
  have h2 : (": " : String).length = 2 := rfl
  unfold perItemMsgsDelete at hs
  by_cases hto : item.take_over <;> simp only [hto, if_true, if_false,
    Bool.false_eq_true] at hs
  · simp at hs
  · rcases hrm : io.remove_file item.path with e | u
    · rw [hrm] at hs
      simp only [List.mem_append, List.mem_singleton] at hs
      rcases hs with hs | hs
      · subst hs
        apply len_ne_done
        simp only [pathDbg, String.length_append]
        omega
      · subst hs
        apply len_ne_done
        simp only [String.length_append]
        omega
    · rw [hrm] at hs
      simp only [List.append_nil, List.mem_singleton] at hs
      subst hs
      apply len_ne_done
      simp only [pathDbg, String.length_append]
      omega

end ItemSort

namespace ItemSort

/-- **C8**: for every item list, sieve method, directory policy and
behaviour of the I/O collaborator, the progress stream ends with `"Done"`,
contains `"Done"` exactly once, and reports each failing per-file
operation — copy under `Copy`, move under `Move`/`MoveAndDelete`, delete
of discarded items under `MoveAndDelete` and `Delete` — as a formatted
error line while the batch continues (the stream still contains the
contributions of every item and the terminal `"Done"`). -/
theorem sieve_msgs_c8 (il : ItemList) (path : String) (method : SieveMethod)
    (dn : DirectoryNames) (io : MSieveIO)
    (itemDisp itemDebug : FileItem → String) :
    (sieveMsgs il path method dn io itemDisp itemDebug).getLast? =
      some "Done" ∧
    (sieveMsgs il path method dn io itemDisp itemDebug).count "Done" = 1 ∧
    (∀ item ∈ il.items, item.take_over = true → method = SieveMethod.Copy →
      ∀ e, (io.copy item.path (targetFor il path dn item)).2 =
          Except.error e →
        ("Error copying " ++ itemDisp item ++ ": " ++ e) ∈
          sieveMsgs il path method dn io itemDisp itemDebug) ∧
    (∀ item ∈ il.items, item.take_over = true →
      (method = SieveMethod.Move ∨ method = SieveMethod.MoveAndDelete) →
      ∀ e, (io.move item.path (targetFor il path dn item)).2 =
          Except.error e →
        ("Error moving " ++ itemDisp item ++ ": " ++ e) ∈
          sieveMsgs il path method dn io itemDisp itemDebug) ∧
    (∀ item ∈ il.items, item.take_over = false →
      method = SieveMethod.MoveAndDelete →
      ∀ e, io.remove_file item.path = Except.error e →
        ("Error deleting " ++ itemDisp item ++ ": " ++ e) ∈
          sieveMsgs il path method dn io itemDisp itemDebug) ∧
    (∀ item ∈ il.items, item.take_over = false →
      method = SieveMethod.Delete →
      ∀ e, io.remove_file item.path = Except.error e →
        ("Error deleting " ++ itemDebug item ++ ": " ++ e) ∈
          sieveMsgs il path method dn io itemDisp itemDebug) := by
  have hbody : ∀ s ∈ (if method ≠ SieveMethod.Delete then
      il.items.foldl
        (fun acc item => acc ++ perItemMsgs il path method dn io itemDisp item)
        []
    else
      il.items.foldl
        (fun acc item => acc ++ perItemMsgsDelete io itemDebug item) []),
      s ≠ "Done" := by
    intro s hs
    by_cases hm : method ≠ SieveMethod.Delete
    · rw [if_pos hm, foldl_append_eq] at hs
      simp only [List.nil_append, List.mem_flatMap] at hs
      obtain ⟨item, hitem, hmem⟩ := hs
      exact perItemMsgs_ne_done il path method dn io itemDisp item s hmem
    · rw [if_neg hm, foldl_append_eq] at hs
      simp only [List.nil_append, List.mem_flatMap] at hs
      obtain ⟨item, hitem, hmem⟩ := hs
      exact perItemMsgsDelete_ne_done io itemDebug item s hmem
  refine ⟨?_, ?_, ?_, ?_, ?_, ?_⟩
  · unfold sieveMsgs
    exact List.getLast?_concat _
  · unfold sieveMsgs
    rw [List.count_append]
    have h0 := List.count_eq_zero.mpr (fun hmem => hbody "Done" hmem rfl)
    rw [h0]
    rfl
  · intro item hitem hto hm e hcp
    unfold sieveMsgs
    subst hm
    have hmd : SieveMethod.Copy ≠ SieveMethod.Delete := by decide
    rw [if_pos hmd, foldl_append_eq]
    refine List.mem_append.mpr (Or.inl ?_)
    simp only [List.nil_append]
    refine List.mem_flatMap.mpr ⟨item, hitem, ?_⟩
    unfold perItemMsgs
    simp only [hto, if_true, if_pos rfl, hcp]
    simp
  · intro item hitem hto hm e hcp
    unfold sieveMsgs
    have hmc : method ≠ SieveMethod.Copy := by
      rcases hm with h | h <;> subst h <;> decide
    have hmd : method ≠ SieveMethod.Delete := by
      rcases hm with h | h <;> subst h <;> decide
    rw [if_pos hmd, foldl_append_eq]
    refine List.mem_append.mpr (Or.inl ?_)
    simp only [List.nil_append]
    refine List.mem_flatMap.mpr ⟨item, hitem, ?_⟩
    unfold perItemMsgs
    simp only [hto, if_true, if_neg hmc, hcp]
    simp
  · intro item hitem hto hm e hrm
    unfold sieveMsgs
    subst hm
    have hmd : SieveMethod.MoveAndDelete ≠ SieveMethod.Delete := by decide
    rw [if_pos hmd, foldl_append_eq]
    refine List.mem_append.mpr (Or.inl ?_)
    simp only [List.nil_append]
    refine List.mem_flatMap.mpr ⟨item, hitem, ?_⟩
    unfold perItemMsgs
    simp only [hto, Bool.false_eq_true, if_false, if_pos rfl, hrm]
    simp
  · intro item hitem hto hm e hrm
    unfold sieveMsgs
    subst hm
    have hmd : ¬SieveMethod.Delete ≠ SieveMethod.Delete := fun h => h rfl
    rw [if_neg hmd, foldl_append_eq]
    refine List.mem_append.mpr (Or.inl ?_)
    simp only [List.nil_append]
    refine List.mem_flatMap.mpr ⟨item, hitem, ?_⟩
    unfold perItemMsgsDelete
    simp only [hto, Bool.false_eq_true, if_false, hrm]
    simp

/-- The one-item list and always-failing copy behaviour used as the C8
witness input. -/
def c8il : ItemList := ⟨[⟨"dir/a.jpg", 0, true, [], none⟩], []⟩

/-- An I/O behaviour whose `copy` always fails with message `"io"`. -/
def c8io : MSieveIO :=
  ⟨fun _ t => (t, Except.error "io"), fun _ t => (t, Except.ok ()),
   fun _ => Except.ok (), fun _ => Except.ok ()⟩

/-- C8, witness: with a copy that always fails, the error line for the
single item appears in the stream. -/
theorem sieve_msgs_c8_witness :
    ("Error copying " ++ "ITEM" ++ ": " ++ "io") ∈
      sieveMsgs c8il "root" SieveMethod.Copy DirectoryNames.YearAndMonth
        c8io (fun _ => "ITEM") (fun _ => "DBG") :=
  (sieve_msgs_c8 c8il "root" SieveMethod.Copy DirectoryNames.YearAndMonth
    c8io (fun _ => "ITEM") (fun _ => "DBG")).2.2.1
    ⟨"dir/a.jpg", 0, true, [], none⟩ (by simp [c8il]) rfl rfl "io" rfl

end ItemSort

namespace CacheSpec

open ItemSort (FileItem)

/-- Model of `LoadImageCommand` (src/misc/image_cache.rs).  The callback
is an opaque token of type `C` (`DoneCallback` is a closure; only its
identity matters to the queue logic). -/
structure LoadImageCommand (C : Type) where
  file_item : FileItem
  width : Nat
  height : Nat
  callback : Option C
deriving DecidableEq

/-- `PartialEq` of `LoadImageCommand`: commands compare equal exactly when
their file items do, and `FileItem`'s `PartialEq` compares the paths. -/
def cmdEq {C : Type} (a b : LoadImageCommand C) : Bool :=
  decide (a.file_item.path = b.file_item.path)

/-- Model of the `Purpose` enum. -/
inductive Purpose where
  | CurrentImage
  | SimilarImage
  | Prefetch
deriving DecidableEq, Repr

/-- Model of `ImageCache`: the LRU image map (capacity 64, keyed by the
path string), the size bounds, and the two command queues.  The wake
channels and worker threads carry no queue state and are not modelled;
`Img` stands for `ImageBuffer`. -/
structure ImageCacheState (Img C : Type) where
  images : LruSpec.LruMap Img String 64
  max_width : Nat
  max_height : Nat
  primary_queue : List (LoadImageCommand C)
  secondary_queue : List (LoadImageCommand C)

/-- `ImageCache::purge` (lines 109-112): clear both queues. -/
def ImageCacheState.purge {Img C : Type} (st : ImageCacheState Img C) :
    ImageCacheState Img C :=
  { st with primary_queue := [], secondary_queue := [] }

/-- `ImageCache::get` (lines 124-129): look the item's path up in the LRU
map (bumping its recency counter).  The conversion of the buffer to a UI
image is omitted. -/
def ImageCacheState.get {Img C : Type} [DecidableEq Img]
    (st : ImageCacheState Img C) (item : FileItem) :
    Option Img × ImageCacheState Img C :=
  let r := st.images.get item.path
  (r.1, { st with images := r.2 })

/-- `ImageCache::load` (lines 139-166): build the command from the item
and the current size bounds; `CurrentImage` clears the primary queue and
pushes to its front, `SimilarImage` appends to the secondary queue,
`Prefetch` appends to the secondary queue unless an equal command is
already queued. -/
def ImageCacheState.load {Img C : Type} (st : ImageCacheState Img C)
    (item : FileItem) (purpose : Purpose) (done_callback : Option C) :
    ImageCacheState Img C :=
  let command : LoadImageCommand C :=
    ⟨item, st.max_width, st.max_height, done_callback⟩
  match purpose with
  | .CurrentImage => { st with primary_queue := command :: [] }
  | .SimilarImage =>
      { st with secondary_queue := st.secondary_queue ++ [command] }
  | .Prefetch =>
      if st.secondary_queue.any (fun c => cmdEq c command) then st
      else { st with secondary_queue := st.secondary_queue ++ [command] }

/-- **C9**: a `CurrentImage` load clears the whole primary queue before
pushing the new command to its front; hence after loading A then B (both
`CurrentImage`, no dequeue in between) the primary queue is exactly the
one command for B, and no command for A's path remains to be popped. -/
theorem image_cache_load_c9 {Img C : Type} (st : ImageCacheState Img C)
    (A B : FileItem) (cbA cbB : Option C) (hAB : A.path ≠ B.path) :
    ((st.load A .CurrentImage cbA).load B .CurrentImage cbB).primary_queue =
      [⟨B, st.max_width, st.max_height, cbB⟩] ∧
    ∀ c ∈ ((st.load A .CurrentImage cbA).load B
        .CurrentImage cbB).primary_queue,
      c.file_item.path ≠ A.path := by
  have hq : ((st.load A .CurrentImage cbA).load B
      .CurrentImage cbB).primary_queue =
      [⟨B, st.max_width, st.max_height, cbB⟩] := rfl
  refine ⟨hq, ?_⟩
  intro c hc
  rw [hq] at hc
  have : c = ⟨B, st.max_width, st.max_height, cbB⟩ := by
    simpa using hc
  rw [this]
  exact fun h => hAB h.symm

/-- An empty cache state over concrete buffer/callback types. -/
def c9st : ImageCacheState Nat Nat := ⟨LruSpec.LruMap.new, 0, 0, [], []⟩

/-- Two items with distinct paths. -/
def c9A : FileItem := ⟨"a.jpg", 0, true, [], none⟩

def c9B : FileItem := ⟨"b.jpg", 0, true, [], none⟩

/-- C9, witness: after the two loads the primary queue holds exactly B's
command. -/
theorem image_cache_load_c9_witness :
    ((c9st.load c9A .CurrentImage none).load c9B
        .CurrentImage none).primary_queue = [⟨c9B, 0, 0, none⟩] :=
  (image_cache_load_c9 c9st c9A c9B none none (by decide)).1

/-- **C10**: `purge` empties both load queues and leaves everything else
— the cached images with their recency counters, and the size bounds —
untouched; in particular `get` returns the same image before and after a
purge. -/
theorem image_cache_purge_c10 {Img C : Type} [DecidableEq Img]
    (st : ImageCacheState Img C) :
    st.purge.primary_queue = [] ∧
    st.purge.secondary_queue = [] ∧
    st.purge.images = st.images ∧
    st.purge.max_width = st.max_width ∧
    st.purge.max_height = st.max_height ∧
    ∀ item : FileItem, (st.purge.get item).1 = (st.get item).1 := by
  exact ⟨rfl, rfl, rfl, rfl, rfl, fun _ => rfl⟩

end CacheSpec
